import Mathlib

set_option maxHeartbeats 1000000

/-!
Verification development for the cooperative action scheduler in
`mt_action.h` / `mt_action.cpp` (namespace `MT`).

The C++ classes are embedded shallowly:

* `Status` is `Action::ENUM_ACTION_STATUS`, `AEvent` is `ENUM_ACTION_EVENT`.
* `Act` is the closed set of concrete `Action` subclasses
  (`ActionQueue`, `ActionWaitAny`, `ActionWaitAll`, `ActionChecker`,
  `ActionWaitForTime`, `ActionFunction`), each constructor carrying that
  class's data members.  `double` time values are modelled as exact
  rationals.  `ActionChecker`'s watched external variable is modelled as
  unchanging, its constructor stores the boolean value of `_var == _value`.
  `ActionFunction` stores a counter of how many times `_func` was invoked
  instead of the callback itself.
* Observer notifications (`_OnEvent`) are modelled by returning the list of
  fired events; each event is tagged with the path of child indices from the
  receiver of the operation down to the action that fired it (`[]` = the
  receiver itself).
* `ActionQueue::Pause/Resume/Stop` read `_actions[_index]` without a bounds
  check; the out-of-bounds read is undefined behavior in C++ and is modelled
  by returning `none`.
* `Update` recursion is bounded by an explicit fuel argument that strictly
  decreases on every recursive call; `none` on fuel exhaustion.  All claims
  about `Update` either quantify over the fuel or use a concrete sufficient
  fuel.
-/

/-- Action status: `Action::ENUM_ACTION_STATUS` of `mt_action.h`. -/
inductive Status where
  | INIT
  | RUNNING
  | PAUSED
  | FINISHED
  | CANCELED
deriving DecidableEq, Repr

/-- Action events: `ENUM_ACTION_EVENT` of `mt_action.h`. -/
inductive AEvent where
  | STARTED
  | PAUSED
  | RESUMED
  | FINISHED
  | CANCELED
deriving DecidableEq, Repr

/-- Fired events, each tagged with the path of child indices from the
receiver of the operation to the action that fired the event. -/
abbrev Evs := List (List Nat × AEvent)

/-- Events fired by the receiver itself (path `[]`). -/
def atRoot (l : List AEvent) : Evs := l.map fun e => ([], e)

/-- Re-tag events fired inside child number `i`. -/
def inChild (i : Nat) (l : Evs) : Evs := l.map fun pe => (i :: pe.1, pe.2)

/-- Events of `evs` fired by the receiver itself (path `[]`). -/
def rootEvs (evs : Evs) : List AEvent :=
  (evs.filter fun pe => pe.1.isEmpty).map Prod.snd

/-- Concrete `Action` subclasses of `mt_action.h`, with their data members:
`ActionQueue` (`_actions`, `_index`), `ActionWaitAny`, `ActionWaitAll`
(`_actions`), `ActionChecker` (`varEq` is the value of `_var == _value`,
`done` is `_done`), `ActionWaitForTime` (`_waitTime`, `_delayedTime`,
`_done`), `ActionFunction` (`calls` counts invocations of `_func`, `done` is
`_done`).  Every constructor's first field is the base class's `_status`. -/
inductive Act where
  | queue (st : Status) (actions : List Act) (index : Nat)
  | waitAny (st : Status) (actions : List Act)
  | waitAll (st : Status) (actions : List Act)
  | checker (st : Status) (varEq : Bool) (done : Bool)
  | waitForTime (st : Status) (waitTime : ℚ) (delayedTime : ℚ) (done : Bool)
  | funcAct (st : Status) (calls : Nat) (done : Bool)

/-- Base class field `_status`. -/
def Act.status : Act → Status
  | .queue s _ _ => s
  | .waitAny s _ => s
  | .waitAll s _ => s
  | .checker s _ _ => s
  | .waitForTime s _ _ _ => s
  | .funcAct s _ _ => s

/-- Replace the `_status` field, keeping all subclass data. -/
def Act.withStatus : Act → Status → Act
  | .queue _ cs i, s => .queue s cs i
  | .waitAny _ cs, s => .waitAny s cs
  | .waitAll _ cs, s => .waitAll s cs
  | .checker _ v d, s => .checker s v d
  | .waitForTime _ w e d, s => .waitForTime s w e d
  | .funcAct _ c d, s => .funcAct s c d

/-- Child list of a composite (`_actions`); `[]` for the leaf classes. -/
def Act.children : Act → List Act
  | .queue _ cs _ => cs
  | .waitAny _ cs => cs
  | .waitAll _ cs => cs
  | _ => []

/-- Statuses of the children of a composite. -/
def Act.childStatuses (a : Act) : List Status := a.children.map Act.status

/-- Cursor `_index` of an `ActionQueue` (`0` for the other classes). -/
def Act.index : Act → Nat
  | .queue _ _ i => i
  | _ => 0

/-- Leaf `_done` flag (`false` for the composites). -/
def Act.doneFlag : Act → Bool
  | .checker _ _ d => d
  | .waitForTime _ _ _ d => d
  | .funcAct _ _ d => d
  | _ => false

/-- Number of `_func` invocations of an `ActionFunction` (`0` otherwise). -/
def Act.calls : Act → Nat
  | .funcAct _ c _ => c
  | _ => 0

/-- Field `_delayedTime` of an `ActionWaitForTime` (`0` otherwise). -/
def Act.delayed : Act → ℚ
  | .waitForTime _ _ e _ => e
  | _ => 0

/-- Whether `a` is one of the three leaf classes. -/
def Act.isLeaf : Act → Bool
  | .checker _ _ _ => true
  | .waitForTime _ _ _ _ => true
  | .funcAct _ _ _ => true
  | _ => false

/-- Base `Action::Start`: `Init -> Running`, firing `STARTED`; otherwise a
no-op. -/
def Action.Start (s : Status) : Status × List AEvent :=
  if s = .INIT then (.RUNNING, [.STARTED]) else (s, [])

/-- Base `Action::Pause`: `Running -> Paused`, firing `PAUSED`; otherwise a
no-op. -/
def Action.Pause (s : Status) : Status × List AEvent :=
  if s = .RUNNING then (.PAUSED, [.PAUSED]) else (s, [])

/-- Base `Action::Resume`: `Paused -> Running`, firing `RESUMED`; otherwise a
no-op. -/
def Action.Resume (s : Status) : Status × List AEvent :=
  if s = .PAUSED then (.RUNNING, [.RESUMED]) else (s, [])

/-- Base `Action::Stop`: unconditionally `-> Canceled`, always firing
`CANCELED`. -/
def Action.Stop (_ : Status) : Status × List AEvent :=
  (.CANCELED, [.CANCELED])

/-- Base `Action::UpdateStatus`: when `IsDone()` holds, set `FINISHED` and
fire `FINISHED` (regardless of the current status); otherwise a no-op. -/
def Action.UpdateStatus (isDone : Bool) (s : Status) : Status × List AEvent :=
  if isDone then (.FINISHED, [.FINISHED]) else (s, [])

/-- Virtual `IsDone` of each class:
`ActionQueue`: `_index >= _actions.size()`;
`ActionWaitAny`: some child `IsFinished`;
`ActionWaitAll`: every child `IsFinished`; leaves: `_done`. -/
def Act.IsDone : Act → Bool
  | .queue _ cs i => decide (cs.length ≤ i)
  | .waitAny _ cs => cs.any fun c => decide (c.status = .FINISHED)
  | .waitAll _ cs => cs.all fun c => decide (c.status = .FINISHED)
  | .checker _ _ d => d
  | .waitForTime _ _ _ d => d
  | .funcAct _ _ d => d

/-- Virtual `Start`: no class overrides `Action::Start`, so only the
receiver's own `_status` changes. -/
def Act.start (a : Act) : Act × Evs :=
  let bs := Action.Start a.status
  (a.withStatus bs.1, atRoot bs.2)

mutual

/-- Virtual dispatch shared by `Pause`, `Resume` and `Stop` (`bf` is the base
class transition).  The composite overrides run the base transition and then
forward the same operation: `ActionQueue` to `_actions[_index]` only (an
out-of-bounds read — undefined behavior — when `_index` is past the end,
modelled as `none`), `ActionWaitAny`/`ActionWaitAll` to every child; the
leaves just inherit the base behavior. -/
def Act.lifeOp (bf : Status → Status × List AEvent) : Act → Option (Act × Evs)
  | .queue s cs i =>
    (Act.lifeOpAt bf cs i).map fun r =>
      (.queue (bf s).1 r.1 i, atRoot (bf s).2 ++ inChild i r.2)
  | .waitAny s cs =>
    (Act.lifeOpList bf cs 0).map fun r =>
      (.waitAny (bf s).1 r.1, atRoot (bf s).2 ++ r.2)
  | .waitAll s cs =>
    (Act.lifeOpList bf cs 0).map fun r =>
      (.waitAll (bf s).1 r.1, atRoot (bf s).2 ++ r.2)
  | .checker s v d => some (.checker (bf s).1 v d, atRoot (bf s).2)
  | .waitForTime s w e d => some (.waitForTime (bf s).1 w e d, atRoot (bf s).2)
  | .funcAct s c d => some (.funcAct (bf s).1 c d, atRoot (bf s).2)

/-- Apply the operation to the child at position `i` (`_actions[_index]`);
`none` models the out-of-bounds read. -/
def Act.lifeOpAt (bf : Status → Status × List AEvent) :
    List Act → Nat → Option (List Act × Evs)
  | [], _ => none
  | c :: cs, 0 => (Act.lifeOp bf c).map fun r => (r.1 :: cs, r.2)
  | c :: cs, n + 1 => (Act.lifeOpAt bf cs n).map fun r => (c :: r.1, r.2)

/-- Apply the operation to every child in order (`i` is the position of the
first child, used only to tag events). -/
def Act.lifeOpList (bf : Status → Status × List AEvent) :
    List Act → Nat → Option (List Act × Evs)
  | [], _ => some ([], [])
  | c :: cs, i =>
    match Act.lifeOp bf c with
    | none => none
    | some r =>
      match Act.lifeOpList bf cs (i + 1) with
      | none => none
      | some rs => some (r.1 :: rs.1, inChild i r.2 ++ rs.2)

end

/-- Virtual `Pause`. -/
def Act.pause : Act → Option (Act × Evs) := Act.lifeOp Action.Pause

/-- Virtual `Resume`. -/
def Act.resume : Act → Option (Act × Evs) := Act.lifeOp Action.Resume

/-- Virtual `Stop`. -/
def Act.stop : Act → Option (Act × Evs) := Act.lifeOp Action.Stop

/-- Loop of `ActionWaitAny::UpdateStatus`: `Stop` every child that is not
`FINISHED`. -/
def Act.stopUnfinished : List Act → Nat → Option (List Act × Evs)
  | [], _ => some ([], [])
  | c :: cs, i =>
    if c.status = .FINISHED then
      (Act.stopUnfinished cs (i + 1)).map fun r => (c :: r.1, r.2)
    else
      match Act.stop c with
      | none => none
      | some r =>
        (Act.stopUnfinished cs (i + 1)).map fun rs =>
          (r.1 :: rs.1, inChild i r.2 ++ rs.2)

mutual

/-- Virtual `Update(intervalTime)`, with `fuel` strictly decreasing on every
recursive call (`none` on exhaustion).

`ActionQueue::Update` runs `queueLoop` and then the base
`Action::Update(intervalTime)`, i.e. `UpdateStatus` (checking
`_index >= _actions.size()`) followed by returning the interval.

`ActionWaitAny::Update` runs every child against the same incoming interval
(`anyLoop`, aggregating the maximum leftover, seeded at `0`) and then the
base `Action::Update(maxLeftTime)`; its overridden `UpdateStatus`
additionally `Stop`s every non-`FINISHED` child whenever the status is
`FINISHED` afterwards.

`ActionWaitAll::Update` is symmetric with the minimum leftover, seeded at
`0`, and no `UpdateStatus` override.

The leaves first return `0` unless `RUNNING`; `ActionChecker` recomputes
`_done` from the watched comparison and passes `_done ? t : 0` to the base
update; `ActionWaitForTime` consumes `min(remaining, t)` and passes the rest;
`ActionFunction` invokes `_func`, sets `_done` and passes the whole `t`. -/
def Act.updateFuel : Nat → Act → ℚ → Option (Act × ℚ × Evs)
  | 0, _, _ => none
  | n + 1, .queue s cs i, t =>
    match Act.queueLoop n s cs i t with
    | none => none
    | some r =>
      let us := Action.UpdateStatus (decide (r.1.length ≤ r.2.1)) s
      some (.queue us.1 r.1 r.2.1, r.2.2.1, r.2.2.2 ++ atRoot us.2)
  | n + 1, .waitAny s cs, t =>
    match Act.anyLoop n cs 0 t 0 with
    | none => none
    | some r =>
      let us := Action.UpdateStatus
        (r.1.any fun c => decide (c.status = .FINISHED)) s
      if us.1 = .FINISHED then
        match Act.stopUnfinished r.1 0 with
        | none => none
        | some rs =>
          some (.waitAny us.1 rs.1, r.2.1, r.2.2 ++ atRoot us.2 ++ rs.2)
      else
        some (.waitAny us.1 r.1, r.2.1, r.2.2 ++ atRoot us.2)
  | n + 1, .waitAll s cs, t =>
    match Act.allLoop n cs 0 t 0 with
    | none => none
    | some r =>
      let us := Action.UpdateStatus
        (r.1.all fun c => decide (c.status = .FINISHED)) s
      some (.waitAll us.1 r.1, r.2.1, r.2.2 ++ atRoot us.2)
  | _ + 1, .checker s v d, t =>
    if s = .RUNNING then
      let us := Action.UpdateStatus v s
      some (.checker us.1 v v, if v then t else 0, atRoot us.2)
    else some (.checker s v d, 0, [])
  | _ + 1, .waitForTime s w e d, t =>
    if s = .RUNNING then
      if w ≤ e + t then
        some (.waitForTime (Action.UpdateStatus true s).1 w (e + (w - e)) true,
          t - (w - e), atRoot (Action.UpdateStatus true s).2)
      else
        some (.waitForTime (Action.UpdateStatus false s).1 w (e + t) false,
          t - t, atRoot (Action.UpdateStatus false s).2)
    else some (.waitForTime s w e d, 0, [])
  | _ + 1, .funcAct s c d, t =>
    if s = .RUNNING then
      let us := Action.UpdateStatus true s
      some (.funcAct us.1 (c + 1) true, t, atRoot us.2)
    else some (.funcAct s c d, 0, [])

/-- While loop of `ActionQueue::Update`: as long as `_index` is in range,
start the current child if `Init`, mirror the queue's own `Paused` status
onto it, advance it with the current interval when positive and the child is
`Running`, replace the interval with the child's leftover, and move the
cursor on if the child is now `Finished`, else break.  Returns the final
child list, cursor, interval and events. -/
def Act.queueLoop :
    Nat → Status → List Act → Nat → ℚ → Option (List Act × Nat × ℚ × Evs)
  | 0, _, _, _, _ => none
  | n + 1, selfSt, cs, i, t =>
    match cs[i]? with
    | none => some (cs, i, t, [])
    | some c =>
      let c1e := if c.status = .INIT then Act.start c else (c, [])
      match
        (if c1e.1.status = .RUNNING ∧ selfSt = .PAUSED then Act.pause c1e.1
         else some (c1e.1, [])) with
      | none => none
      | some c2e =>
        match
          (if 0 < t ∧ c2e.1.status = .RUNNING then
            Act.updateFuel n c2e.1 t
           else some (c2e.1, t, [])) with
        | none => none
        | some c3r =>
          let evs := inChild i (c1e.2 ++ c2e.2 ++ c3r.2.2)
          if c3r.1.status = .FINISHED then
            match Act.queueLoop n selfSt (cs.set i c3r.1) (i + 1) c3r.2.1 with
            | none => none
            | some rest =>
              some (rest.1, rest.2.1, rest.2.2.1, evs ++ rest.2.2.2)
          else
            some (cs.set i c3r.1, i, c3r.2.1, evs)

/-- For loop of `ActionWaitAny::Update`: start `Init` children, advance every
`Running` child with the same incoming interval, and keep the maximum
leftover (accumulator `acc`, seeded at `0` by the caller).  `i` is the
position of the first child, used only to tag events. -/
def Act.anyLoop :
    Nat → List Act → Nat → ℚ → ℚ → Option (List Act × ℚ × Evs)
  | 0, _, _, _, _ => none
  | _ + 1, [], _, _, acc => some ([], acc, [])
  | n + 1, c :: cs, i, t, acc =>
    let c1e := if c.status = .INIT then Act.start c else (c, [])
    if c1e.1.status = .RUNNING then
      match Act.updateFuel n c1e.1 t with
      | none => none
      | some r =>
        let acc1 := if acc < r.2.1 then r.2.1 else acc
        match Act.anyLoop n cs (i + 1) t acc1 with
        | none => none
        | some rest =>
          some (r.1 :: rest.1, rest.2.1, inChild i (c1e.2 ++ r.2.2) ++ rest.2.2)
    else
      match Act.anyLoop n cs (i + 1) t acc with
      | none => none
      | some rest =>
        some (c1e.1 :: rest.1, rest.2.1, inChild i c1e.2 ++ rest.2.2)

/-- For loop of `ActionWaitAll::Update`: same as `anyLoop` but keeping the
minimum leftover (accumulator seeded at `0` by the caller). -/
def Act.allLoop :
    Nat → List Act → Nat → ℚ → ℚ → Option (List Act × ℚ × Evs)
  | 0, _, _, _, _ => none
  | _ + 1, [], _, _, acc => some ([], acc, [])
  | n + 1, c :: cs, i, t, acc =>
    let c1e := if c.status = .INIT then Act.start c else (c, [])
    if c1e.1.status = .RUNNING then
      match Act.updateFuel n c1e.1 t with
      | none => none
      | some r =>
        let acc1 := if r.2.1 < acc then r.2.1 else acc
        match Act.allLoop n cs (i + 1) t acc1 with
        | none => none
        | some rest =>
          some (r.1 :: rest.1, rest.2.1, inChild i (c1e.2 ++ r.2.2) ++ rest.2.2)
    else
      match Act.allLoop n cs (i + 1) t acc with
      | none => none
      | some rest =>
        some (c1e.1 :: rest.1, rest.2.1, inChild i c1e.2 ++ rest.2.2)

end

/-- Lifecycle operations of the `Action` interface (§4.1): `Start`, `Pause`,
`Resume`, `Stop` and `Update` with a time delta. -/
inductive Op where
  | opStart
  | opPause
  | opResume
  | opStop
  | opUpdate (t : ℚ)

/-- Apply one lifecycle operation (`fuel` bounds the `Update` recursion). -/
def Act.applyOp (fuel : Nat) : Op → Act → Option Act
  | .opStart, a => some (Act.start a).1
  | .opPause, a => (Act.pause a).map Prod.fst
  | .opResume, a => (Act.resume a).map Prod.fst
  | .opStop, a => (Act.stop a).map Prod.fst
  | .opUpdate t, a => (Act.updateFuel fuel a t).map fun r => r.1

/-- Apply a sequence of lifecycle operations in order. -/
def Act.applyOps (fuel : Nat) : List Op → Act → Option Act
  | [], a => some a
  | o :: os, a =>
    match Act.applyOp fuel o a with
    | none => none
    | some a1 => Act.applyOps fuel os a1

/-- Drive an action with a list of successive `Update` deltas, collecting the
leftover returned by each call. -/
def Act.runUpdates (fuel : Nat) : Act → List ℚ → Option (Act × List ℚ)
  | a, [] => some (a, [])
  | a, d :: ds =>
    match Act.updateFuel fuel a d with
    | none => none
    | some r =>
      match Act.runUpdates fuel r.1 ds with
      | none => none
      | some rest => some (rest.1, r.2.1 :: rest.2)

/-- Registry state (`ActionManager`): the `unordered_map` from names to root
actions, modelled as an association list with unique keys; the map's
(unspecified) iteration order is the list order. -/
structure ActionManager where
  actions : List (String × Act)

/-- Body of `ActionManager::Update(intervalTime)` over the entry list: drive
each entry's `Update` once and erase it when the action is observed
`FINISHED` immediately afterwards. -/
def ActionManager.updateList (fuel : Nat) (t : ℚ) :
    List (String × Act) → Option (List (String × Act))
  | [] => some []
  | (nm, a) :: rest =>
    match Act.updateFuel fuel a t with
    | none => none
    | some r =>
      match ActionManager.updateList fuel t rest with
      | none => none
      | some rest1 =>
        some (if r.1.status = .FINISHED then rest1 else (nm, r.1) :: rest1)

/-- `ActionManager::Update`. -/
def ActionManager.Update (m : ActionManager) (fuel : Nat) (t : ℚ) :
    Option ActionManager :=
  (ActionManager.updateList fuel t m.actions).map ActionManager.mk

/-- `ActionManager::Start(name, action)`: if the name is already registered,
return without touching anything; otherwise insert the action under the name
and `Start` it. -/
def ActionManager.Start (m : ActionManager) (name : String) (action : Act) :
    ActionManager :=
  if (m.actions.lookup name).isSome then m
  else ⟨(name, (Act.start action).1) :: m.actions⟩

/-- `ActionManager::IsExist(name)`. -/
def ActionManager.IsExist (m : ActionManager) (name : String) : Bool :=
  (m.actions.lookup name).isSome

/-- Fresh `ActionWaitForTime(d)` as constructed: `Init`, no time elapsed. -/
def timerFresh (d : ℚ) : Act := .waitForTime .INIT d 0 false

/-- Fresh `ActionFunction` as constructed: `Init`, callback not yet invoked. -/
def funcFresh : Act := .funcAct .INIT 0 false

/-- Started `ActionWaitAny` holding three timers with durations 1, 2, 3. -/
def anyDemo : Act :=
  (Act.start (.waitAny .INIT [timerFresh 1, timerFresh 2, timerFresh 3])).1

/-- Started `ActionWaitAll` holding three timers with durations 1, 2, 3. -/
def allDemo : Act :=
  (Act.start (.waitAll .INIT [timerFresh 1, timerFresh 2, timerFresh 3])).1

/-- Started `ActionQueue` (Sequence) of two fresh `ActionFunction` children. -/
def seqDemo : Act :=
  (Act.start (.queue .INIT [funcFresh, funcFresh] 0)).1

/-- State of an `ActionWaitForTime` with target `D` after consuming `cum`
total time while `Running` (with at least one `Update` call made): still
`Running` with `cum` elapsed when `cum < D`, else `Finished` with exactly `D`
elapsed. -/
def tchild (D cum : ℚ) : Act :=
  if cum < D then .waitForTime .RUNNING D cum false
  else .waitForTime .FINISHED D D true

/-- Running `ActionWaitAll` over timers 1, 2, 3 after consuming `cum < 3`. -/
def wAll (cum : ℚ) : Act :=
  .waitAll .RUNNING [tchild 1 cum, tchild 2 cum, tchild 3 cum]

/-- Leftover sequence predicted by the specification for a `Running` timer
with target `D` and `c` already elapsed (spec P2): each call before the
target is reached returns `0`; the call that reaches it returns
`delta - (D - elapsed_before)`; afterwards every call returns `0`. -/
def timerSpecLeftovers (D : ℚ) : ℚ → List ℚ → List ℚ
  | _, [] => []
  | c, d :: ds =>
    if D ≤ c + d then (d - (D - c)) :: List.replicate ds.length 0
    else 0 :: timerSpecLeftovers D (c + d) ds

/-- Specification-side recomputation, following the spec's words for
`ActionWaitAll::Update`, of the list of leftovers reported by "the children
advanced in that call" (children that are `Running` after being started when
`Init`), for comparison with the loop's aggregate.  The fuel is threaded
exactly as in `Act.allLoop` so the two traversals advance each child
identically. -/
def allAdvancedLefts : Nat → ℚ → List Act → Option (List ℚ)
  | 0, _, _ => none
  | _ + 1, _, [] => some []
  | n + 1, t, c :: cs =>
    let c1 := if c.status = .INIT then (Act.start c).1 else c
    if c1.status = .RUNNING then
      match Act.updateFuel n c1 t with
      | none => none
      | some r => (allAdvancedLefts n t cs).map fun ls => r.2.1 :: ls
    else allAdvancedLefts n t cs

@[simp] theorem rootEvs_nil : rootEvs [] = [] := rfl

@[simp] theorem rootEvs_append (a b : Evs) :
    rootEvs (a ++ b) = rootEvs a ++ rootEvs b := by
  simp [rootEvs, List.filter_append]

@[simp] theorem rootEvs_atRoot (l : List AEvent) : rootEvs (atRoot l) = l := by
  induction l with
  | nil => rfl
  | cons e l ih => simpa [rootEvs, atRoot, List.filter] using ih

@[simp] theorem rootEvs_inChild (i : Nat) (l : Evs) :
    rootEvs (inChild i l) = [] := by
  induction l with
  | nil => rfl
  | cons pe l ih => simpa [rootEvs, inChild, List.filter] using ih

@[simp] theorem Act.status_withStatus (a : Act) (s : Status) :
    (a.withStatus s).status = s := by
  cases a <;> rfl

theorem Act.start_status (a : Act) :
    (Act.start a).1.status = if a.status = .INIT then .RUNNING else a.status := by
  by_cases h : a.status = .INIT <;> simp [Act.start, Action.Start, h]

theorem Act.start_rootEvs (a : Act) :
    rootEvs (Act.start a).2 = if a.status = .INIT then [.STARTED] else [] := by
  by_cases h : a.status = .INIT <;> simp [Act.start, Action.Start, h]

theorem Act.lifeOpList_rootEvs (bf : Status → Status × List AEvent) :
    ∀ (cs : List Act) (i : Nat) rs,
      Act.lifeOpList bf cs i = some rs → rootEvs rs.2 = [] := by
  intro cs
  induction cs with
  | nil =>
    intro i rs h
    simp only [Act.lifeOpList, Option.some.injEq] at h
    subst h; rfl
  | cons c cs ih =>
    intro i rs h
    simp only [Act.lifeOpList] at h
    cases hc : Act.lifeOp bf c with
    | none => rw [hc] at h; simp at h
    | some r =>
      rw [hc] at h
      cases hcs : Act.lifeOpList bf cs (i + 1) with
      | none => rw [hcs] at h; simp at h
      | some rs0 =>
        rw [hcs] at h
        obtain rfl : (r.1 :: rs0.1, inChild i r.2 ++ rs0.2) = rs := by
          simpa using h
        simpa using ih (i + 1) rs0 hcs

theorem Act.lifeOp_char (bf : Status → Status × List AEvent) (a : Act)
    (r : Act × Evs) (h : Act.lifeOp bf a = some r) :
    r.1.status = (bf a.status).1 ∧ rootEvs r.2 = (bf a.status).2 := by
  cases a with
  | queue s cs i =>
    simp only [Act.lifeOp, Option.map_eq_some'] at h
    obtain ⟨r0, _, rfl⟩ := h
    simp [Act.status]
  | waitAny s cs =>
    simp only [Act.lifeOp, Option.map_eq_some'] at h
    obtain ⟨r0, hr0, rfl⟩ := h
    simp [Act.status, Act.lifeOpList_rootEvs bf cs 0 r0 hr0]
  | waitAll s cs =>
    simp only [Act.lifeOp, Option.map_eq_some'] at h
    obtain ⟨r0, hr0, rfl⟩ := h
    simp [Act.status, Act.lifeOpList_rootEvs bf cs 0 r0 hr0]
  | checker s v d =>
    simp only [Act.lifeOp, Option.some.injEq] at h
    subst h; simp [Act.status]
  | waitForTime s w e d =>
    simp only [Act.lifeOp, Option.some.injEq] at h
    subst h; simp [Act.status]
  | funcAct s c d =>
    simp only [Act.lifeOp, Option.some.injEq] at h
    subst h; simp [Act.status]

theorem Act.stopUnfinished_rootEvs :
    ∀ (cs : List Act) (i : Nat) r,
      Act.stopUnfinished cs i = some r → rootEvs r.2 = [] := by
  intro cs
  induction cs with
  | nil =>
    intro i r h
    simp only [Act.stopUnfinished, Option.some.injEq] at h
    subst h; rfl
  | cons c cs ih =>
    intro i r h
    simp only [Act.stopUnfinished] at h
    by_cases hf : c.status = .FINISHED
    · rw [if_pos hf] at h
      simp only [Option.map_eq_some'] at h
      obtain ⟨r0, hr0, rfl⟩ := h
      simpa using ih (i + 1) r0 hr0
    · rw [if_neg hf] at h
      cases hs : Act.stop c with
      | none => rw [hs] at h; simp at h
      | some rs =>
        rw [hs] at h
        simp only [Option.map_eq_some'] at h
        obtain ⟨r0, hr0, rfl⟩ := h
        simpa using ih (i + 1) r0 hr0

theorem Act.queueLoop_rootEvs :
    ∀ (n : Nat) (selfSt : Status) (cs : List Act) (i : Nat) (t : ℚ) r,
      Act.queueLoop n selfSt cs i t = some r → rootEvs r.2.2.2 = [] := by
  intro n
  induction n with
  | zero => intro selfSt cs i t r h; simp [Act.queueLoop] at h
  | succ n ih =>
    intro selfSt cs i t r h
    simp only [Act.queueLoop] at h
    cases hci : cs[i]? with
    | none =>
      rw [hci] at h
      obtain rfl : (cs, i, t, ([] : Evs)) = r := by simpa using h
      rfl
    | some c =>
      rw [hci] at h
      simp only at h
      set c1e := if c.status = .INIT then Act.start c else (c, []) with hc1
      cases hp : (if c1e.1.status = .RUNNING ∧ selfSt = .PAUSED then
          Act.pause c1e.1 else some (c1e.1, [])) with
      | none => rw [hp] at h; simp at h
      | some c2e =>
        rw [hp] at h
        simp only at h
        cases hu : (if 0 < t ∧ c2e.1.status = .RUNNING then
            Act.updateFuel n c2e.1 t else some (c2e.1, t, [])) with
        | none => rw [hu] at h; simp at h
        | some c3r =>
          rw [hu] at h
          simp only at h
          by_cases hf : c3r.1.status = .FINISHED
          · rw [if_pos hf] at h
            cases hq : Act.queueLoop n selfSt (cs.set i c3r.1) (i + 1) c3r.2.1 with
            | none => rw [hq] at h; simp at h
            | some rest =>
              rw [hq] at h
              obtain rfl : (rest.1, rest.2.1, rest.2.2.1,
                  inChild i (c1e.2 ++ c2e.2 ++ c3r.2.2) ++ rest.2.2.2) = r := by
                simpa using h
              simpa using ih selfSt (cs.set i c3r.1) (i + 1) c3r.2.1 rest hq
          · rw [if_neg hf] at h
            obtain rfl : (cs.set i c3r.1, i, c3r.2.1,
                inChild i (c1e.2 ++ c2e.2 ++ c3r.2.2)) = r := by simpa using h
            simp

theorem Act.anyLoop_rootEvs :
    ∀ (n : Nat) (cs : List Act) (i : Nat) (t acc : ℚ) r,
      Act.anyLoop n cs i t acc = some r → rootEvs r.2.2 = [] := by
  intro n
  induction n with
  | zero => intro cs i t acc r h; simp [Act.anyLoop] at h
  | succ n ih =>
    intro cs i t acc r h
    cases cs with
    | nil =>
      simp only [Act.anyLoop, Option.some.injEq] at h
      subst h; rfl
    | cons c cs =>
      simp only [Act.anyLoop] at h
      set c1e := if c.status = .INIT then Act.start c else (c, []) with hc1
      by_cases hr : c1e.1.status = .RUNNING
      · rw [if_pos hr] at h
        cases hu : Act.updateFuel n c1e.1 t with
        | none => rw [hu] at h; simp at h
        | some r0 =>
          rw [hu] at h
          simp only at h
          cases hl : Act.anyLoop n cs (i + 1) t
              (if acc < r0.2.1 then r0.2.1 else acc) with
          | none => rw [hl] at h; simp at h
          | some rest =>
            rw [hl] at h
            obtain rfl : (r0.1 :: rest.1, rest.2.1,
                inChild i (c1e.2 ++ r0.2.2) ++ rest.2.2) = r := by simpa using h
            simpa using ih cs (i + 1) t _ rest hl
      · rw [if_neg hr] at h
        cases hl : Act.anyLoop n cs (i + 1) t acc with
        | none => rw [hl] at h; simp at h
        | some rest =>
          rw [hl] at h
          obtain rfl : (c1e.1 :: rest.1, rest.2.1,
              inChild i c1e.2 ++ rest.2.2) = r := by simpa using h
          simpa using ih cs (i + 1) t acc rest hl

theorem Act.allLoop_rootEvs :
    ∀ (n : Nat) (cs : List Act) (i : Nat) (t acc : ℚ) r,
      Act.allLoop n cs i t acc = some r → rootEvs r.2.2 = [] := by
  intro n
  induction n with
  | zero => intro cs i t acc r h; simp [Act.allLoop] at h
  | succ n ih =>
    intro cs i t acc r h
    cases cs with
    | nil =>
      simp only [Act.allLoop, Option.some.injEq] at h
      subst h; rfl
    | cons c cs =>
      simp only [Act.allLoop] at h
      set c1e := if c.status = .INIT then Act.start c else (c, []) with hc1
      by_cases hr : c1e.1.status = .RUNNING
      · rw [if_pos hr] at h
        cases hu : Act.updateFuel n c1e.1 t with
        | none => rw [hu] at h; simp at h
        | some r0 =>
          rw [hu] at h
          simp only at h
          cases hl : Act.allLoop n cs (i + 1) t
              (if r0.2.1 < acc then r0.2.1 else acc) with
          | none => rw [hl] at h; simp at h
          | some rest =>
            rw [hl] at h
            obtain rfl : (r0.1 :: rest.1, rest.2.1,
                inChild i (c1e.2 ++ r0.2.2) ++ rest.2.2) = r := by simpa using h
            simpa using ih cs (i + 1) t _ rest hl
      · rw [if_neg hr] at h
        cases hl : Act.allLoop n cs (i + 1) t acc with
        | none => rw [hl] at h; simp at h
        | some rest =>
          rw [hl] at h
          obtain rfl : (c1e.1 :: rest.1, rest.2.1,
              inChild i c1e.2 ++ rest.2.2) = r := by simpa using h
          simpa using ih cs (i + 1) t acc rest hl

theorem Action.UpdateStatus_char (b : Bool) (s : Status) :
    Action.UpdateStatus b s = (.FINISHED, [.FINISHED])
    ∨ Action.UpdateStatus b s = (s, []) := by
  cases b <;> simp [Action.UpdateStatus]

theorem Act.update_root_char :
    ∀ (n : Nat) (a : Act) (t : ℚ) (r : Act × ℚ × Evs),
      Act.updateFuel n a t = some r →
      (r.1.status = a.status ∧ rootEvs r.2.2 = [])
      ∨ (r.1.status = .FINISHED ∧ rootEvs r.2.2 = [.FINISHED]) := by
  intro n a t r h
  match n with
  | 0 => simp [Act.updateFuel] at h
  | n + 1 =>
    cases a with
    | queue s cs i =>
      simp only [Act.updateFuel] at h
      cases hq : Act.queueLoop n s cs i t with
      | none => rw [hq] at h; simp at h
      | some r0 =>
        rw [hq] at h
        obtain rfl :
            (Act.queue (Action.UpdateStatus (decide (r0.1.length ≤ r0.2.1)) s).1
              r0.1 r0.2.1, r0.2.2.1,
              r0.2.2.2 ++
                atRoot (Action.UpdateStatus (decide (r0.1.length ≤ r0.2.1)) s).2)
            = r := by simpa using h
        have hre := Act.queueLoop_rootEvs n s cs i t r0 hq
        rcases Action.UpdateStatus_char (decide (r0.1.length ≤ r0.2.1)) s with
          hus | hus
        · right; rw [hus]; simp [Act.status, hre]
        · left; rw [hus]; simp [Act.status, hre]
    | waitAny s cs =>
      simp only [Act.updateFuel] at h
      cases hl : Act.anyLoop n cs 0 t 0 with
      | none => rw [hl] at h; simp at h
      | some r0 =>
        rw [hl] at h
        simp only at h
        have h1 := Act.anyLoop_rootEvs n cs 0 t 0 r0 hl
        cases hb : (r0.1.any fun c => decide (c.status = .FINISHED)) with
        | true =>
          rw [hb] at h
          simp only [Action.UpdateStatus, if_pos rfl] at h
          simp only [reduceIte] at h
          cases hsu : Act.stopUnfinished r0.1 0 with
          | none => rw [hsu] at h; simp at h
          | some rs =>
            rw [hsu] at h
            obtain rfl :
                (Act.waitAny Status.FINISHED rs.1, r0.2.1,
                  r0.2.2 ++ atRoot [AEvent.FINISHED] ++ rs.2) = r := by
              simpa using h
            have h2 := Act.stopUnfinished_rootEvs r0.1 0 rs hsu
            right
            simp [Act.status, h1, h2]
        | false =>
          rw [hb] at h
          simp only [Action.UpdateStatus] at h
          simp only [Bool.false_eq_true, if_false] at h
          by_cases hs : s = .FINISHED
          · rw [if_pos hs] at h
            cases hsu : Act.stopUnfinished r0.1 0 with
            | none => rw [hsu] at h; simp at h
            | some rs =>
              rw [hsu] at h
              obtain rfl :
                  (Act.waitAny s rs.1, r0.2.1, r0.2.2 ++ atRoot [] ++ rs.2)
                  = r := by simpa using h
              have h2 := Act.stopUnfinished_rootEvs r0.1 0 rs hsu
              left
              simp [Act.status, h1, h2, atRoot]
          · rw [if_neg hs] at h
            obtain rfl :
                (Act.waitAny s r0.1, r0.2.1, r0.2.2 ++ atRoot []) = r := by
              simpa using h
            left
            simp [Act.status, h1, atRoot]
    | waitAll s cs =>
      simp only [Act.updateFuel] at h
      cases hl : Act.allLoop n cs 0 t 0 with
      | none => rw [hl] at h; simp at h
      | some r0 =>
        rw [hl] at h
        obtain rfl :
            (Act.waitAll
              (Action.UpdateStatus
                (r0.1.all fun c => decide (c.status = .FINISHED)) s).1 r0.1,
              r0.2.1,
              r0.2.2 ++
                atRoot (Action.UpdateStatus
                  (r0.1.all fun c => decide (c.status = .FINISHED)) s).2)
            = r := by simpa using h
        have h1 := Act.allLoop_rootEvs n cs 0 t 0 r0 hl
        rcases Action.UpdateStatus_char
            (r0.1.all fun c => decide (c.status = .FINISHED)) s with hus | hus
        · right; rw [hus]; simp [Act.status, h1]
        · left; rw [hus]; simp [Act.status, h1, atRoot]
    | checker s v d =>
      simp only [Act.updateFuel] at h
      by_cases hs : s = .RUNNING
      · rw [if_pos hs] at h
        obtain rfl :
            (Act.checker (Action.UpdateStatus v s).1 v v, if v then t else 0,
              atRoot (Action.UpdateStatus v s).2) = r := by simpa using h
        rcases Action.UpdateStatus_char v s with hus | hus
        · right; rw [hus]; simp [Act.status]
        · left; rw [hus]; simp [Act.status, atRoot]
      · rw [if_neg hs] at h
        obtain rfl : (Act.checker s v d, (0 : ℚ), ([] : Evs)) = r := by
          simpa using h
        left; simp [Act.status]
    | waitForTime s w e d =>
      simp only [Act.updateFuel] at h
      by_cases hs : s = .RUNNING
      · rw [if_pos hs] at h
        by_cases hw : w ≤ e + t
        · rw [if_pos hw] at h
          obtain rfl :
              (Act.waitForTime (Action.UpdateStatus true s).1 w (e + (w - e))
                true, t - (w - e),
                atRoot (Action.UpdateStatus true s).2) = r := by simpa using h
          right; simp [Act.status, Action.UpdateStatus]
        · rw [if_neg hw] at h
          obtain rfl :
              (Act.waitForTime (Action.UpdateStatus false s).1 w (e + t) false,
                t - t, atRoot (Action.UpdateStatus false s).2) = r := by
            simpa using h
          left; simp [Act.status, Action.UpdateStatus, atRoot]
      · rw [if_neg hs] at h
        obtain rfl : (Act.waitForTime s w e d, (0 : ℚ), ([] : Evs)) = r := by
          simpa using h
        left; simp [Act.status]
    | funcAct s c d =>
      simp only [Act.updateFuel] at h
      by_cases hs : s = .RUNNING
      · rw [if_pos hs] at h
        obtain rfl :
            (Act.funcAct (Action.UpdateStatus true s).1 (c + 1) true, t,
              atRoot (Action.UpdateStatus true s).2) = r := by simpa using h
        right; simp [Act.status, Action.UpdateStatus]
      · rw [if_neg hs] at h
        obtain rfl : (Act.funcAct s c d, (0 : ℚ), ([] : Evs)) = r := by
          simpa using h
        left; simp [Act.status]

theorem Act.leaf_update_notRunning (a : Act) (n : Nat) (t : ℚ)
    (hl : a.isLeaf = true) (hs : a.status ≠ .RUNNING) :
    Act.updateFuel (n + 1) a t = some (a, 0, []) := by
  cases a <;> simp_all [Act.isLeaf, Act.status, Act.updateFuel]

theorem Act.leaf_update_status :
    ∀ (n : Nat) (a : Act) (t : ℚ) (r : Act × ℚ × Evs), a.isLeaf = true →
      Act.updateFuel n a t = some r →
      r.1.status = a.status ∨ (a.status = .RUNNING ∧ r.1.status = .FINISHED) := by
  intro n a t r hl h
  match n with
  | 0 => simp [Act.updateFuel] at h
  | n + 1 =>
    cases a with
    | queue s cs i => simp [Act.isLeaf] at hl
    | waitAny s cs => simp [Act.isLeaf] at hl
    | waitAll s cs => simp [Act.isLeaf] at hl
    | checker s v d =>
      simp only [Act.updateFuel] at h
      by_cases hs : s = .RUNNING
      · rw [if_pos hs] at h
        obtain rfl :
            (Act.checker (Action.UpdateStatus v s).1 v v, if v then t else 0,
              atRoot (Action.UpdateStatus v s).2) = r := by simpa using h
        cases v
        · left; simp [Act.status, Action.UpdateStatus]
        · right; exact ⟨hs, by simp [Act.status, Action.UpdateStatus]⟩
      · rw [if_neg hs] at h
        obtain rfl : (Act.checker s v d, (0 : ℚ), ([] : Evs)) = r := by
          simpa using h
        left; rfl
    | waitForTime s w e d =>
      simp only [Act.updateFuel] at h
      by_cases hs : s = .RUNNING
      · rw [if_pos hs] at h
        by_cases hw : w ≤ e + t
        · rw [if_pos hw] at h
          obtain rfl :
              (Act.waitForTime (Action.UpdateStatus true s).1 w (e + (w - e))
                true, t - (w - e),
                atRoot (Action.UpdateStatus true s).2) = r := by simpa using h
          right; exact ⟨hs, by simp [Act.status, Action.UpdateStatus]⟩
        · rw [if_neg hw] at h
          obtain rfl :
              (Act.waitForTime (Action.UpdateStatus false s).1 w (e + t) false,
                t - t, atRoot (Action.UpdateStatus false s).2) = r := by
            simpa using h
          left; simp [Act.status, Action.UpdateStatus]
      · rw [if_neg hs] at h
        obtain rfl : (Act.waitForTime s w e d, (0 : ℚ), ([] : Evs)) = r := by
          simpa using h
        left; rfl
    | funcAct s c d =>
      simp only [Act.updateFuel] at h
      by_cases hs : s = .RUNNING
      · rw [if_pos hs] at h
        obtain rfl :
            (Act.funcAct (Action.UpdateStatus true s).1 (c + 1) true, t,
              atRoot (Action.UpdateStatus true s).2) = r := by simpa using h
        right; exact ⟨hs, by simp [Act.status, Action.UpdateStatus]⟩
      · rw [if_neg hs] at h
        obtain rfl : (Act.funcAct s c d, (0 : ℚ), ([] : Evs)) = r := by
          simpa using h
        left; rfl

/-- Claim C1, counterexample: an empty `ActionQueue` whose status is
`CANCELED` satisfies `IsDone` (`0 >= 0`), so one `Update` call moves its
status from `Canceled` straight to `Finished` and fires `FINISHED` — a
transition the §4.1 table does not contain (the completion check is only
supposed to move `Running` to `Finished`), refuting the claim that the
status only follows that table. -/
theorem C1_counterexample :
    (Act.updateFuel 2 (.queue .CANCELED [] 0) 1).map
        (fun r => (r.1.status, r.2.1, r.2.2))
      = some (.FINISHED, 1, [([], .FINISHED)])
    ∧ Status.CANCELED ≠ Status.RUNNING
    ∧ Status.FINISHED ≠ Status.CANCELED := by
  refine ⟨by decide, by decide, by decide⟩

/-- Claim C1, amended: for every action, `Start`, `Pause` and `Resume`
follow the §4.1 table exactly on the receiver's own status and fire the
corresponding event exactly when a real transition happens (no event on a
no-op); `Stop` always forces `Canceled` and fires `Canceled` from any state;
the completion check inside `Update` either leaves the receiver's status
unchanged firing nothing, or sets `Finished` firing exactly `Finished` — but
this `Finished` transition can start from any status when the completion
predicate holds (not only from `Running`, which is the correction the
counterexample forces); leaf actions do keep the table: their `Update` only
ever moves the status from `Running` to `Finished`. -/
theorem C1_amended_transitions :
    (∀ a : Act,
      (Act.start a).1.status
          = (if a.status = .INIT then .RUNNING else a.status)
      ∧ rootEvs (Act.start a).2
          = (if a.status = .INIT then [.STARTED] else []))
    ∧ (∀ (a : Act) r, Act.pause a = some r →
      r.1.status = (if a.status = .RUNNING then .PAUSED else a.status)
      ∧ rootEvs r.2 = (if a.status = .RUNNING then [.PAUSED] else []))
    ∧ (∀ (a : Act) r, Act.resume a = some r →
      r.1.status = (if a.status = .PAUSED then .RUNNING else a.status)
      ∧ rootEvs r.2 = (if a.status = .PAUSED then [.RESUMED] else []))
    ∧ (∀ (a : Act) r, Act.stop a = some r →
      r.1.status = .CANCELED ∧ rootEvs r.2 = [.CANCELED])
    ∧ (∀ (n : Nat) (a : Act) (t : ℚ) r, Act.updateFuel n a t = some r →
      (r.1.status = a.status ∧ rootEvs r.2.2 = [])
      ∨ (r.1.status = .FINISHED ∧ rootEvs r.2.2 = [.FINISHED]))
    ∧ (∀ (n : Nat) (a : Act) (t : ℚ) r, a.isLeaf = true →
      Act.updateFuel n a t = some r →
      r.1.status = a.status
      ∨ (a.status = .RUNNING ∧ r.1.status = .FINISHED)) := by
  refine ⟨?_, ?_, ?_, ?_, ?_, ?_⟩
  · exact fun a => ⟨Act.start_status a, Act.start_rootEvs a⟩
  · intro a r h
    have hc := Act.lifeOp_char Action.Pause a r h
    by_cases hs : a.status = .RUNNING <;>
      simp [Action.Pause, hs] at hc <;> simp [hs, hc.1, hc.2]
  · intro a r h
    have hc := Act.lifeOp_char Action.Resume a r h
    by_cases hs : a.status = .PAUSED <;>
      simp [Action.Resume, hs] at hc <;> simp [hs, hc.1, hc.2]
  · intro a r h
    have hc := Act.lifeOp_char Action.Stop a r h
    simpa [Action.Stop] using hc
  · exact fun n a t r h => Act.update_root_char n a t r h
  · exact fun n a t r hl h => Act.leaf_update_status n a t r hl h

/-- Claim C1 amended, witness: the amended theorem applied at concrete
inputs, discharging each hypothesis — a pause of a running checker, a resume
of a paused checker, a stop of a canceled timer, an update of a finished
queue, and an update of a running function action. -/
theorem C1_amended_witness :
    (Act.pause (.checker .RUNNING true false)
        = some (.checker .PAUSED true false, atRoot [.PAUSED])
      ∧ (Act.checker .PAUSED true false).status = .PAUSED
      ∧ rootEvs (atRoot [AEvent.PAUSED]) = [.PAUSED])
    ∧ (Act.resume (.checker .PAUSED true false)
        = some (.checker .RUNNING true false, atRoot [.RESUMED])
      ∧ (Act.checker .RUNNING true false).status = .RUNNING)
    ∧ (Act.stop (.waitForTime .CANCELED 1 0 false)
        = some (.waitForTime .CANCELED 1 0 false, atRoot [.CANCELED])
      ∧ (Act.waitForTime .CANCELED 1 0 false).status = .CANCELED)
    ∧ (Act.updateFuel 2 (.queue .FINISHED [] 0) 1
        = some (.queue .FINISHED [] 0, 1, atRoot [.FINISHED])
      ∧ ((Act.queue .FINISHED [] 0).status = (Act.queue .FINISHED [] 0).status
          ∧ rootEvs (atRoot [AEvent.FINISHED]) = []
        ∨ (Act.queue .FINISHED [] 0).status = .FINISHED
          ∧ rootEvs (atRoot [AEvent.FINISHED]) = [.FINISHED]))
    ∧ (Act.isLeaf (.funcAct .RUNNING 0 false) = true
      ∧ Act.updateFuel 1 (.funcAct .RUNNING 0 false) 3
        = some (.funcAct .FINISHED 1 true, 3, atRoot [.FINISHED])
      ∧ ((Act.funcAct .FINISHED 1 true).status
            = (Act.funcAct .RUNNING 0 false).status
        ∨ (Act.funcAct .RUNNING 0 false).status = .RUNNING
          ∧ (Act.funcAct .FINISHED 1 true).status = .FINISHED)) := by
  have hp : Act.pause (.checker .RUNNING true false)
      = some (.checker .PAUSED true false, atRoot [.PAUSED]) := rfl
  have hr : Act.resume (.checker .PAUSED true false)
      = some (.checker .RUNNING true false, atRoot [.RESUMED]) := rfl
  have hst : Act.stop (.waitForTime .CANCELED 1 0 false)
      = some (.waitForTime .CANCELED 1 0 false, atRoot [.CANCELED]) := rfl
  have hu : Act.updateFuel 2 (.queue .FINISHED [] 0) 1
      = some (.queue .FINISHED [] 0, 1, atRoot [.FINISHED]) := rfl
  have hf : Act.updateFuel 1 (.funcAct .RUNNING 0 false) 3
      = some (.funcAct .FINISHED 1 true, 3, atRoot [.FINISHED]) := rfl
  refine ⟨⟨hp, ?_⟩, ⟨hr, ?_⟩, ⟨hst, ?_⟩, ⟨hu, ?_⟩, ⟨by decide, hf, ?_⟩⟩
  · have := (C1_amended_transitions.2.1 _ _ hp)
    simpa [Act.status] using this
  · have := (C1_amended_transitions.2.2.1 _ _ hr)
    simpa [Act.status] using this.1
  · exact (C1_amended_transitions.2.2.2.1 _ _ hst).1
  · exact C1_amended_transitions.2.2.2.2.1 2 _ 1 _ hu
  · exact C1_amended_transitions.2.2.2.2.2 1 _ 3 _ (by decide) hf

/-- Claim C2, counterexample: an empty `ActionQueue` in `Init` refutes the
claim for the composites — `Update(5)` on it is not a no-op: the while loop
is skipped but the final base `Action::Update` sees `IsDone`, moves the
status to `Finished`, fires the `FINISHED` event, and the call returns the
full delta `5`, not `0`. -/
theorem C2_counterexample :
    (Act.updateFuel 2 (.queue .INIT [] 0) 5).map
        (fun r => (r.1.status, r.2.1, r.2.2))
      = some (.FINISHED, 5, [([], .FINISHED)])
    ∧ Status.FINISHED ≠ Status.INIT
    ∧ (5 : ℚ) ≠ 0 := by
  refine ⟨by decide, by decide, by decide⟩

/-- Claim C2, amended: the claimed no-op guard holds for the leaf actions
only — for every leaf action (`ActionChecker`, `ActionWaitForTime`,
`ActionFunction`) and every non-negative delta, `Update` while not `Running`
leaves the action unchanged, fires no event and returns `0` leftover.  The
composites (`ActionQueue`, `ActionWaitAny`, `ActionWaitAll`) and the
inherited base `Action::Update` perform no such guard (see the
counterexample). -/
theorem C2_amended_leaf_noop (a : Act) (n : Nat) (t : ℚ) (hl : a.isLeaf = true)
    (ht : 0 ≤ t) (hs : a.status ≠ .RUNNING) :
    Act.updateFuel (n + 1) a t = some (a, 0, []) :=
  Act.leaf_update_notRunning a n t hl hs

/-- Claim C2 amended, witness: the amended theorem applied to a paused timer
with delta `5`. -/
theorem C2_amended_witness :
    Act.isLeaf (.waitForTime .PAUSED 2 1 false) = true
    ∧ (0 : ℚ) ≤ 5
    ∧ (Act.waitForTime .PAUSED 2 1 false).status ≠ .RUNNING
    ∧ Act.updateFuel 1 (.waitForTime .PAUSED 2 1 false) 5
        = some (.waitForTime .PAUSED 2 1 false, 0, []) :=
  ⟨by decide, by norm_num, by decide,
    C2_amended_leaf_noop (.waitForTime .PAUSED 2 1 false) 0 5 (by decide)
      (by norm_num) (by decide)⟩

theorem Act.lifeOpAt_none_of_ge (bf : Status → Status × List AEvent) :
    ∀ (cs : List Act) (i : Nat), cs.length ≤ i →
      Act.lifeOpAt bf cs i = none := by
  intro cs
  induction cs with
  | nil => intro i _; cases i <;> rfl
  | cons c cs ih =>
    intro i hi
    cases i with
    | zero => simp at hi
    | succ n =>
      simp only [Act.lifeOpAt]
      rw [ih n (by simpa using hi)]
      rfl

theorem Act.lifeOp_queue_oob (bf : Status → Status × List AEvent) (s : Status)
    (cs : List Act) (i : Nat) (h : cs.length ≤ i) :
    Act.lifeOp bf (.queue s cs i) = none := by
  simp only [Act.lifeOp]
  rw [Act.lifeOpAt_none_of_ge bf cs i h]
  rfl

theorem Act.lifeOp_queue_bound (bf : Status → Status × List AEvent)
    (s : Status) (cs : List Act) (i : Nat) (r : Act × Evs)
    (h : Act.lifeOp bf (.queue s cs i) = some r) : i < cs.length := by
  by_contra hge
  push_neg at hge
  rw [Act.lifeOp_queue_oob bf s cs i hge] at h
  exact Option.noConfusion h

/-- Claim C3 (confirmed): `ActionQueue::Pause/Resume/Stop` read
`_actions[_index]` unconditionally; in the model the read is in bounds — the
operation produces a result — only when the cursor is strictly below the
child count, and whenever the queue's `IsDone` predicate holds (cursor past
the last child, in particular for an empty queue) the unguarded
`_actions[_index]` access is past the end of the child list (modelled as
`none`, undefined behavior in the C++). -/
theorem C3_queue_cursor_out_of_bounds :
    (∀ (s : Status) (cs : List Act) (i : Nat) r,
      Act.pause (.queue s cs i) = some r → i < cs.length)
    ∧ (∀ (s : Status) (cs : List Act) (i : Nat) r,
      Act.resume (.queue s cs i) = some r → i < cs.length)
    ∧ (∀ (s : Status) (cs : List Act) (i : Nat) r,
      Act.stop (.queue s cs i) = some r → i < cs.length)
    ∧ (∀ (s : Status) (cs : List Act) (i : Nat),
      Act.IsDone (.queue s cs i) = true →
        Act.pause (.queue s cs i) = none
        ∧ Act.resume (.queue s cs i) = none
        ∧ Act.stop (.queue s cs i) = none) := by
  refine ⟨fun s cs i r h => Act.lifeOp_queue_bound _ s cs i r h,
    fun s cs i r h => Act.lifeOp_queue_bound _ s cs i r h,
    fun s cs i r h => Act.lifeOp_queue_bound _ s cs i r h, ?_⟩
  intro s cs i hd
  have hge : cs.length ≤ i := by simpa [Act.IsDone] using hd
  exact ⟨Act.lifeOp_queue_oob _ s cs i hge, Act.lifeOp_queue_oob _ s cs i hge,
    Act.lifeOp_queue_oob _ s cs i hge⟩

/-- Claim C3, witness: the theorem applied to an empty running queue, whose
`IsDone` holds, so `Pause`, `Resume` and `Stop` all hit the out-of-bounds
read. -/
theorem C3_witness :
    Act.IsDone (.queue .RUNNING [] 0) = true
    ∧ Act.pause (.queue .RUNNING [] 0) = none
    ∧ Act.resume (.queue .RUNNING [] 0) = none
    ∧ Act.stop (.queue .RUNNING [] 0) = none :=
  ⟨by decide, C3_queue_cursor_out_of_bounds.2.2.2 .RUNNING [] 0 (by decide)⟩

/-- Claim C4 (confirmed): a started Sequence (`ActionQueue`) of two
zero-duration `ActionFunction` children, driven by a single `Update` with
delta `5`: both callbacks are invoked (each child's invocation count is 1
and its `_done` flag is set), the cursor advances past both children, the
sequence itself reaches `Finished` within that one call, and the call
returns leftover `5`. -/
theorem C4_sequence_cascade :
    (Act.updateFuel 9 seqDemo 5).map (fun r =>
        (r.1.status, r.1.index, r.1.children.map Act.calls,
          r.1.children.map Act.doneFlag, r.1.childStatuses, r.2.1))
      = some (.FINISHED, 2, [1, 1], [true, true], [.FINISHED, .FINISHED], 5)
      := by rfl

/-- Claim C5, counterexample: the claim quantifies over every delta at least
1, but at delta `2` the second timer (duration 2) also finishes inside the
same `Update` call, so the children end as `[Finished, Finished, Canceled]`
— not "exactly the first child `Finished` and the other two `Canceled`". -/
theorem C5_counterexample :
    (1 : ℚ) ≤ 2
    ∧ (Act.updateFuel 9 anyDemo 2).map (fun r => (r.1.status, r.1.childStatuses))
        = some (.FINISHED, [.FINISHED, .FINISHED, .CANCELED])
    ∧ ([Status.FINISHED, .FINISHED, .CANCELED]
        ≠ [Status.FINISHED, .CANCELED, .CANCELED]) := by
  refine ⟨by norm_num, ?_, by decide⟩
  norm_num +decide [anyDemo, timerFresh, Act.start, Action.Start,
    Act.withStatus, Act.status, Act.updateFuel, Act.anyLoop,
    Act.stopUnfinished, Act.stop, Act.lifeOp, Action.UpdateStatus,
    Action.Stop, atRoot, inChild, Act.childStatuses, Act.children]


theorem Act.timer_update_run_fin (m : Nat) (w e t : ℚ) (d : Bool)
    (h : w ≤ e + t) :
    Act.updateFuel (m + 1) (.waitForTime .RUNNING w e d) t
      = some (.waitForTime .FINISHED w w true, t - (w - e),
          atRoot [.FINISHED]) := by
  have he : e + (w - e) = w := by ring
  simp [Act.updateFuel, if_pos h, Action.UpdateStatus, he]

theorem Act.timer_update_run_go (m : Nat) (w e t : ℚ) (d : Bool)
    (h : ¬ w ≤ e + t) :
    Act.updateFuel (m + 1) (.waitForTime .RUNNING w e d) t
      = some (.waitForTime .RUNNING w (e + t) false, 0, []) := by
  simp [Act.updateFuel, if_neg h, Action.UpdateStatus, atRoot]

/-- Claim C5, amended: restricted to deltas in `[1, 2)` — so that only the
first timer can finish in the call — a started `ActionWaitAny` over timers
with durations 1, 2, 3 ends one `Update` call `Finished` with exactly the
first child `Finished` and the other two forcibly `Canceled` by the
composite's overridden `UpdateStatus`.  (For deltas at least 2 the claim as
stated fails, see the counterexample.) -/
theorem C5_amended_waitany_cancellation (t : ℚ) (r : Act × ℚ × Evs)
    (h1 : 1 ≤ t) (h2 : t < 2)
    (h : Act.updateFuel 9 anyDemo t = some r) :
    r.1.status = .FINISHED
    ∧ r.1.childStatuses = [.FINISHED, .CANCELED, .CANCELED] := by
  have hdemo : anyDemo
      = Act.waitAny .RUNNING [timerFresh 1, timerFresh 2, timerFresh 3] := rfl
  rw [hdemo] at h
  have hn2 : ¬ (2 : ℚ) ≤ t := by linarith
  have hn3 : ¬ (3 : ℚ) ≤ t := by linarith
  rcases eq_or_lt_of_le h1 with heq | hlt
  · subst heq
    norm_num +decide [Act.updateFuel, Act.anyLoop, timerFresh, Act.start,
      Action.Start, Act.status, Act.withStatus, Action.UpdateStatus,
      Act.stopUnfinished, Act.stop, Act.lifeOp, Action.Stop, atRoot,
      inChild, Act.IsDone] at h
    obtain rfl := h
    exact ⟨rfl, rfl⟩
  · have hpos : (0 : ℚ) < t - 1 := by linarith
    have hnn : ¬ t - 1 < (0 : ℚ) := by linarith
    norm_num +decide [Act.updateFuel, Act.anyLoop, timerFresh, Act.start,
      Action.Start, Act.status, Act.withStatus, Action.UpdateStatus,
      Act.stopUnfinished, Act.stop, Act.lifeOp, Action.Stop, atRoot,
      inChild, Act.IsDone, h1, hlt, hn2, hn3, hpos, hnn] at h
    obtain rfl := h
    exact ⟨rfl, rfl⟩

/-- Claim C5 amended, witness: the amended theorem applied at delta `1`. -/
theorem C5_amended_witness :
    (1 : ℚ) ≤ 1 ∧ (1 : ℚ) < 2
    ∧ Act.updateFuel 9 anyDemo 1
      = some (.waitAny .FINISHED
          [.waitForTime .FINISHED 1 1 true, .waitForTime .CANCELED 2 1 false,
            .waitForTime .CANCELED 3 1 false], 0,
          [([0], .STARTED), ([0], .FINISHED), ([1], .STARTED),
            ([2], .STARTED), ([], .FINISHED), ([1], .CANCELED),
            ([2], .CANCELED)])
    ∧ (Act.waitAny .FINISHED
          [.waitForTime .FINISHED 1 1 true, .waitForTime .CANCELED 2 1 false,
            .waitForTime .CANCELED 3 1 false]).status = .FINISHED
    ∧ (Act.waitAny .FINISHED
          [.waitForTime .FINISHED 1 1 true, .waitForTime .CANCELED 2 1 false,
            .waitForTime .CANCELED 3 1 false]).childStatuses
        = [.FINISHED, .CANCELED, .CANCELED] := by
  have hr : Act.updateFuel 9 anyDemo 1
      = some (.waitAny .FINISHED
          [.waitForTime .FINISHED 1 1 true, .waitForTime .CANCELED 2 1 false,
            .waitForTime .CANCELED 3 1 false], 0,
          [([0], .STARTED), ([0], .FINISHED), ([1], .STARTED),
            ([2], .STARTED), ([], .FINISHED), ([1], .CANCELED),
            ([2], .CANCELED)]) := by
    norm_num +decide [Act.updateFuel, Act.anyLoop, timerFresh, Act.start,
      Action.Start, Act.status, Act.withStatus, Action.UpdateStatus,
      Act.stopUnfinished, Act.stop, Act.lifeOp, Action.Stop, atRoot,
      inChild, Act.IsDone, anyDemo]
  have hc := C5_amended_waitany_cancellation 1 _ (by norm_num) (by norm_num) hr
  exact ⟨by norm_num, by norm_num, hr, hc.1, hc.2⟩

theorem min_if (acc x : ℚ) : (if x < acc then x else acc) = min acc x := by
  rcases le_or_lt acc x with hle | hlt
  · rw [if_neg (not_lt.mpr hle), min_eq_left hle]
  · rw [if_pos hlt, min_eq_right (le_of_lt hlt)]

theorem Act.allLoop_lefts :
    ∀ (n : Nat) (cs : List Act) (i : Nat) (t acc : ℚ) r,
      Act.allLoop n cs i t acc = some r →
      ∃ ls, allAdvancedLefts n t cs = some ls
        ∧ r.2.1 = List.foldl min acc ls := by
  intro n
  induction n with
  | zero => intro cs i t acc r h; simp [Act.allLoop] at h
  | succ n ih =>
    intro cs i t acc r h
    cases cs with
    | nil =>
      simp only [Act.allLoop, Option.some.injEq] at h
      subst h
      exact ⟨[], rfl, rfl⟩
    | cons c cs =>
      simp only [Act.allLoop] at h
      simp only [allAdvancedLefts]
      set c1e := if c.status = .INIT then Act.start c else (c, []) with hc1
      have hc1' : (if c.status = .INIT then (Act.start c).1 else c) = c1e.1 := by
        rw [hc1]
        by_cases hi : c.status = .INIT
        · rw [if_pos hi, if_pos hi]
        · rw [if_neg hi, if_neg hi]
      rw [hc1']
      by_cases hr : c1e.1.status = .RUNNING
      · rw [if_pos hr] at h ⊢
        cases hu : Act.updateFuel n c1e.1 t with
        | none => rw [hu] at h; simp at h
        | some r0 =>
          rw [hu] at h
          simp only at h
          cases hl : Act.allLoop n cs (i + 1) t
              (if r0.2.1 < acc then r0.2.1 else acc) with
          | none => rw [hl] at h; simp at h
          | some rest =>
            rw [hl] at h
            obtain rfl : (r0.1 :: rest.1, rest.2.1,
                inChild i (c1e.2 ++ r0.2.2) ++ rest.2.2) = r := by simpa using h
            obtain ⟨ls, hls, hfold⟩ := ih cs (i + 1) t _ rest hl
            refine ⟨r0.2.1 :: ls, by rw [hls]; rfl, ?_⟩
            simpa [List.foldl, min_if acc r0.2.1] using hfold
      · rw [if_neg hr] at h ⊢
        cases hl : Act.allLoop n cs (i + 1) t acc with
        | none => rw [hl] at h; simp at h
        | some rest =>
          rw [hl] at h
          obtain rfl : (c1e.1 :: rest.1, rest.2.1,
              inChild i c1e.2 ++ rest.2.2) = r := by simpa using h
          obtain ⟨ls, hls, hfold⟩ := ih cs (i + 1) t acc rest hl
          exact ⟨ls, hls, hfold⟩

theorem wAll_first (t : ℚ) (r : Act × ℚ × Evs) (ht : 0 ≤ t) (h3 : t < 3)
    (h : Act.updateFuel 9 allDemo t = some r) :
    r.1 = wAll t ∧ r.2.1 = 0 := by
  have hdemo : allDemo = Act.waitAll .RUNNING
      [timerFresh 1, timerFresh 2, timerFresh 3] := rfl
  rw [hdemo] at h
  have hn3 : ¬ (3 : ℚ) ≤ t := by linarith
  by_cases hB1 : t < 1
  · have f1 : ¬ (1 : ℚ) ≤ t := by linarith
    have f2 : ¬ (2 : ℚ) ≤ t := by linarith
    norm_num +decide [Act.updateFuel, Act.allLoop, timerFresh, Act.start,
      Action.Start, Act.status, Act.withStatus, Action.UpdateStatus,
      Act.IsDone, atRoot, inChild, f1, f2, hn3] at h
    obtain rfl := h
    have g2 : t < 2 := by linarith
    refine ⟨?_, rfl⟩
    simp [wAll, tchild, hB1, g2, h3]
  · by_cases hB2 : t < 2
    · have f1 : (1 : ℚ) ≤ t := by linarith
      have f2 : ¬ (2 : ℚ) ≤ t := by linarith
      have hfnn1 : ¬ (t - 1 < (0 : ℚ)) := by linarith
      norm_num +decide [Act.updateFuel, Act.allLoop, timerFresh, Act.start,
        Action.Start, Act.status, Act.withStatus, Action.UpdateStatus,
        Act.IsDone, atRoot, inChild, f1, f2, hn3, hfnn1] at h
      obtain rfl := h
      refine ⟨?_, rfl⟩
      simp [wAll, tchild, hB1, hB2, h3]
    · have f1 : (1 : ℚ) ≤ t := by linarith
      have f2 : (2 : ℚ) ≤ t := by linarith
      have hfnn1 : ¬ (t - 1 < (0 : ℚ)) := by linarith
      have hfnn2 : ¬ (t - 2 < (0 : ℚ)) := by linarith
      norm_num +decide [Act.updateFuel, Act.allLoop, timerFresh, Act.start,
        Action.Start, Act.status, Act.withStatus, Action.UpdateStatus,
        Act.IsDone, atRoot, inChild, f1, f2, hn3, hfnn1, hfnn2] at h
      obtain rfl := h
      refine ⟨?_, rfl⟩
      simp [wAll, tchild, hB1, hB2, h3]

theorem wAll_step (cum t : ℚ) (r : Act × ℚ × Evs) (h0 : 0 ≤ cum) (ht : 0 ≤ t)
    (h3 : cum + t < 3) (h : Act.updateFuel 9 (wAll cum) t = some r) :
    r.1 = wAll (cum + t) ∧ r.2.1 = 0 := by
  have hn3 : ¬ (3 : ℚ) ≤ cum + t := by linarith
  by_cases hA1 : cum < 1
  · have hA2 : cum < 2 := by linarith
    have hA3 : cum < 3 := by linarith
    have hw : wAll cum = Act.waitAll .RUNNING
        [.waitForTime .RUNNING 1 cum false, .waitForTime .RUNNING 2 cum false,
          .waitForTime .RUNNING 3 cum false] := by
      simp [wAll, tchild, hA1, hA2, hA3]
    rw [hw] at h
    by_cases hB1 : cum + t < 1
    · have f1 : ¬ (1 : ℚ) ≤ cum + t := by linarith
      have f2 : ¬ (2 : ℚ) ≤ cum + t := by linarith
      norm_num +decide [Act.updateFuel, Act.allLoop, Act.status,
        Action.UpdateStatus, Act.IsDone, atRoot, inChild, f1, f2, hn3] at h
      obtain rfl := h
      have g2 : cum + t < 2 := by linarith
      exact ⟨by simp [wAll, tchild, hB1, g2, h3], rfl⟩
    · by_cases hB2 : cum + t < 2
      · have f1 : (1 : ℚ) ≤ cum + t := by linarith
        have f2 : ¬ (2 : ℚ) ≤ cum + t := by linarith
        have hfix1 : cum + (1 - cum) = (1 : ℚ) := by ring
        have hfnn1 : ¬ (t - (1 - cum) < (0 : ℚ)) := by linarith
        norm_num +decide [Act.updateFuel, Act.allLoop, Act.status,
          Action.UpdateStatus, Act.IsDone, atRoot, inChild, f1, f2, hn3,
          hfix1, hfnn1] at h
        obtain rfl := h
        exact ⟨by simp [wAll, tchild, hB1, hB2, h3], rfl⟩
      · have f1 : (1 : ℚ) ≤ cum + t := by linarith
        have f2 : (2 : ℚ) ≤ cum + t := by linarith
        have hfix1 : cum + (1 - cum) = (1 : ℚ) := by ring
        have hfix2 : cum + (2 - cum) = (2 : ℚ) := by ring
        have hfnn1 : ¬ (t - (1 - cum) < (0 : ℚ)) := by linarith
        have hfnn2 : ¬ (t - (2 - cum) < (0 : ℚ)) := by linarith
        norm_num +decide [Act.updateFuel, Act.allLoop, Act.status,
          Action.UpdateStatus, Act.IsDone, atRoot, inChild, f1, f2, hn3,
          hfix1, hfix2, hfnn1, hfnn2] at h
        obtain rfl := h
        exact ⟨by simp [wAll, tchild, hB1, hB2, h3], rfl⟩
  · by_cases hA2 : cum < 2
    · have hA3 : cum < 3 := by linarith
      have hw : wAll cum = Act.waitAll .RUNNING
          [.waitForTime .FINISHED 1 1 true, .waitForTime .RUNNING 2 cum false,
            .waitForTime .RUNNING 3 cum false] := by
        simp [wAll, tchild, hA1, hA2, hA3]
      rw [hw] at h
      have hB1 : ¬ cum + t < 1 := by linarith
      by_cases hB2 : cum + t < 2
      · have f2 : ¬ (2 : ℚ) ≤ cum + t := by linarith
        norm_num +decide [Act.updateFuel, Act.allLoop, Act.status,
          Action.UpdateStatus, Act.IsDone, atRoot, inChild, f2, hn3] at h
        obtain rfl := h
        exact ⟨by simp [wAll, tchild, hB1, hB2, h3], rfl⟩
      · have f2 : (2 : ℚ) ≤ cum + t := by linarith
        have hfix2 : cum + (2 - cum) = (2 : ℚ) := by ring
        have hfnn2 : ¬ (t - (2 - cum) < (0 : ℚ)) := by linarith
        norm_num +decide [Act.updateFuel, Act.allLoop, Act.status,
          Action.UpdateStatus, Act.IsDone, atRoot, inChild, f2, hn3,
          hfix2, hfnn2] at h
        obtain rfl := h
        exact ⟨by simp [wAll, tchild, hB1, hB2, h3], rfl⟩
    · have hA3 : cum < 3 := by linarith
      have hw : wAll cum = Act.waitAll .RUNNING
          [.waitForTime .FINISHED 1 1 true, .waitForTime .FINISHED 2 2 true,
            .waitForTime .RUNNING 3 cum false] := by
        simp [wAll, tchild, hA1, hA2, hA3]
      rw [hw] at h
      have hB1 : ¬ cum + t < 1 := by linarith
      have hB2 : ¬ cum + t < 2 := by linarith
      norm_num +decide [Act.updateFuel, Act.allLoop, Act.status,
        Action.UpdateStatus, Act.IsDone, atRoot, inChild, hn3] at h
      obtain rfl := h
      exact ⟨by simp [wAll, tchild, hB1, hB2, h3], rfl⟩

theorem tchild_status_ne_canceled (D cum : ℚ) :
    (tchild D cum).status ≠ .CANCELED := by
  unfold tchild
  split
  · simp only [Act.status]; decide
  · simp only [Act.status]; decide

theorem wAll_run :
    ∀ (ds : List ℚ) (cum : ℚ) (res : Act) (ls : List ℚ), 0 ≤ cum →
      (∀ d ∈ ds, 0 ≤ d) → cum + ds.sum < 3 →
      Act.runUpdates 9 (wAll cum) ds = some (res, ls) →
      res = wAll (cum + ds.sum) ∧ ∀ l ∈ ls, l = 0 := by
  intro ds
  induction ds with
  | nil =>
    intro cum res ls h0 hnn h3 h
    simp only [Act.runUpdates, Option.some.injEq] at h
    obtain ⟨rfl, rfl⟩ := Prod.mk.injEq _ _ _ _ ▸ h
    refine ⟨by simp, by simp⟩
  | cons d ds ih =>
    intro cum res ls h0 hnn h3 h
    rw [List.sum_cons] at h3
    have hd0 : 0 ≤ d := hnn d (by simp)
    have hsum0 : 0 ≤ ds.sum :=
      List.sum_nonneg fun x hx => hnn x (by simp [hx])
    simp only [Act.runUpdates] at h
    cases hu : Act.updateFuel 9 (wAll cum) d with
    | none => rw [hu] at h; simp at h
    | some r =>
      rw [hu] at h
      simp only at h
      have hstep := wAll_step cum d r h0 hd0 (by linarith) hu
      cases hrest : Act.runUpdates 9 r.1 ds with
      | none => rw [hrest] at h; simp at h
      | some rest =>
        rw [hrest] at h
        obtain ⟨rfl, rfl⟩ : rest.1 = res ∧ r.2.1 :: rest.2 = ls := by
          simpa [Prod.ext_iff] using h
        rw [hstep.1] at hrest
        obtain ⟨hres, hls⟩ := ih (cum + d) rest.1 rest.2 (by linarith)
          (fun x hx => hnn x (by simp [hx])) (by linarith) (by
            rw [← hrest])
        constructor
        · rw [hres]; congr 1; rw [List.sum_cons]; ring
        · intro l hl
          rcases List.mem_cons.mp hl with hl | hl
          · rw [hl, hstep.2]
          · exact hls l hl

/-- Claim C6 (confirmed): `ActionWaitAll`'s completion predicate holds
exactly when every child is `Finished`; each `Update` call returns as
leftover the minimum, seeded at `0`, over the leftovers of the children
advanced in that call (`allAdvancedLefts` recomputes that list following the
spec's words); and for the started composite over timers 1, 2, 3 driven by
any non-negative deltas of total less than 3, the composite is never
`Finished`, no child is ever `Canceled`, and every call returns leftover
`0`. -/
theorem C6_waitall_completion :
    (∀ (s : Status) (cs : List Act),
      Act.IsDone (.waitAll s cs) = true ↔ ∀ c ∈ cs, c.status = .FINISHED)
    ∧ (∀ (n : Nat) (s : Status) (cs : List Act) (t : ℚ) r,
      Act.updateFuel (n + 1) (.waitAll s cs) t = some r →
      ∃ ls, allAdvancedLefts n t cs = some ls ∧ r.2.1 = ls.foldl min 0)
    ∧ (∀ (ds : List ℚ) (res : Act) (ls : List ℚ),
      (∀ d ∈ ds, 0 ≤ d) → ds.sum < 3 →
      Act.runUpdates 9 allDemo ds = some (res, ls) →
      res.status ≠ .FINISHED
      ∧ (∀ st ∈ res.childStatuses, st ≠ .CANCELED)
      ∧ ∀ l ∈ ls, l = 0) := by
  refine ⟨?_, ?_, ?_⟩
  · intro s cs
    simp [Act.IsDone, List.all_eq_true]
  · intro n s cs t r h
    simp only [Act.updateFuel] at h
    cases hl : Act.allLoop n cs 0 t 0 with
    | none => rw [hl] at h; simp at h
    | some r0 =>
      rw [hl] at h
      obtain ⟨ls, hls, hfold⟩ := Act.allLoop_lefts n cs 0 t 0 r0 hl
      refine ⟨ls, hls, ?_⟩
      have : r.2.1 = r0.2.1 := by
        obtain rfl :
            (Act.waitAll
              (Action.UpdateStatus
                (r0.1.all fun c => decide (c.status = .FINISHED)) s).1 r0.1,
              r0.2.1,
              r0.2.2 ++ atRoot (Action.UpdateStatus
                  (r0.1.all fun c => decide (c.status = .FINISHED)) s).2)
            = r := by simpa using h
        rfl
      rw [this, hfold]
  · intro ds res ls hnn hsum h
    cases ds with
    | nil =>
      obtain ⟨rfl, rfl⟩ : allDemo = res ∧ ([] : List ℚ) = ls := by
        simpa [Act.runUpdates, Prod.ext_iff] using h
      refine ⟨by decide, by decide, by simp⟩
    | cons d ds =>
      rw [List.sum_cons] at hsum
      have hd0 : 0 ≤ d := hnn d (by simp)
      have hsum0 : 0 ≤ ds.sum :=
        List.sum_nonneg fun x hx => hnn x (by simp [hx])
      simp only [Act.runUpdates] at h
      cases hu : Act.updateFuel 9 allDemo d with
      | none => rw [hu] at h; simp at h
      | some r =>
        rw [hu] at h
        simp only at h
        have hfirst := wAll_first d r hd0 (by linarith) hu
        cases hrest : Act.runUpdates 9 r.1 ds with
        | none => rw [hrest] at h; simp at h
        | some rest =>
          rw [hrest] at h
          obtain ⟨rfl, rfl⟩ : rest.1 = res ∧ r.2.1 :: rest.2 = ls := by
            simpa [Prod.ext_iff] using h
          rw [hfirst.1] at hrest
          obtain ⟨hres, hls⟩ := wAll_run ds d rest.1 rest.2 hd0
            (fun x hx => hnn x (by simp [hx])) (by linarith) hrest
          refine ⟨?_, ?_, ?_⟩
          · rw [hres]
            intro hcon
            exact absurd hcon (by simp [wAll, Act.status])
          · rw [hres]
            intro st hst
            simp only [wAll, Act.childStatuses, Act.children,
              List.map_cons, List.map_nil, List.mem_cons,
              List.not_mem_nil, or_false] at hst
            rcases hst with h1 | h2 | h3
            · rw [h1]; exact tchild_status_ne_canceled 1 _
            · rw [h2]; exact tchild_status_ne_canceled 2 _
            · rw [h3]; exact tchild_status_ne_canceled 3 _
          · intro l hl
            rcases List.mem_cons.mp hl with hl | hl
            · rw [hl, hfirst.2]
            · exact hls l hl

/-- Claim C6, witness: the theorem applied at concrete inputs — the empty
`ActionWaitAll` for the completion predicate and leftover aggregation, and
one step of delta `1` on the three-timer demo. -/
theorem C6_waitall_witness :
    (Act.IsDone (.waitAll .RUNNING ([] : List Act)) = true
      ↔ ∀ c ∈ ([] : List Act), c.status = .FINISHED)
    ∧ Act.updateFuel 9 (.waitAll .RUNNING ([] : List Act)) 5
        = some (.waitAll .FINISHED [], 0, atRoot [.FINISHED])
    ∧ (∃ ls, allAdvancedLefts 8 5 ([] : List Act) = some ls
        ∧ (0 : ℚ) = ls.foldl min 0)
    ∧ (∀ d ∈ [(1 : ℚ)], 0 ≤ d) ∧ ([(1 : ℚ)].sum < 3)
    ∧ Act.runUpdates 9 allDemo [(1 : ℚ)]
        = some (.waitAll .RUNNING
            [.waitForTime .FINISHED 1 1 true, .waitForTime .RUNNING 2 1 false,
              .waitForTime .RUNNING 3 1 false], [0])
    ∧ (Act.waitAll .RUNNING
        [.waitForTime .FINISHED 1 1 true, .waitForTime .RUNNING 2 1 false,
          .waitForTime .RUNNING 3 1 false]).status ≠ .FINISHED
    ∧ (∀ st ∈ (Act.waitAll .RUNNING
        [.waitForTime .FINISHED 1 1 true, .waitForTime .RUNNING 2 1 false,
          .waitForTime .RUNNING 3 1 false]).childStatuses, st ≠ .CANCELED)
    ∧ (∀ l ∈ [(0 : ℚ)], l = 0) := by
  have hu : Act.updateFuel 9 (.waitAll .RUNNING ([] : List Act)) 5
      = some (.waitAll .FINISHED [], 0, atRoot [.FINISHED]) := rfl
  have hrun : Act.runUpdates 9 allDemo [(1 : ℚ)]
      = some (.waitAll .RUNNING
          [.waitForTime .FINISHED 1 1 true, .waitForTime .RUNNING 2 1 false,
            .waitForTime .RUNNING 3 1 false], [0]) := by
    norm_num +decide [Act.runUpdates, Act.updateFuel, Act.allLoop, allDemo,
      timerFresh, Act.start, Action.Start, Act.status, Act.withStatus,
      Action.UpdateStatus, Act.IsDone, atRoot, inChild]
  have h2 := C6_waitall_completion.2.1 8 .RUNNING [] 5
    (.waitAll .FINISHED [], 0, atRoot [.FINISHED]) hu
  have h3 := C6_waitall_completion.2.2 [(1 : ℚ)] _ _
    (by norm_num) (by norm_num) hrun
  exact ⟨C6_waitall_completion.1 .RUNNING [], hu, h2, by norm_num, by norm_num,
    hrun, h3.1, h3.2.1, h3.2.2⟩

theorem timer_finished_run :
    ∀ (ds : List ℚ) (fuel : Nat) (w e : ℚ) (dn : Bool) (res : Act)
      (ls : List ℚ),
      Act.runUpdates (fuel + 1) (.waitForTime .FINISHED w e dn) ds
        = some (res, ls) →
      res = .waitForTime .FINISHED w e dn
      ∧ ls = List.replicate ds.length 0 := by
  intro ds
  induction ds with
  | nil =>
    intro fuel w e dn res ls h
    simp only [Act.runUpdates, Option.some.injEq] at h
    obtain ⟨rfl, rfl⟩ : (Act.waitForTime .FINISHED w e dn) = res
        ∧ ([] : List ℚ) = ls := by simpa [Prod.ext_iff] using h
    exact ⟨rfl, rfl⟩
  | cons d ds ih =>
    intro fuel w e dn res ls h
    simp only [Act.runUpdates] at h
    have hu : Act.updateFuel (fuel + 1) (.waitForTime .FINISHED w e dn) d
        = some (.waitForTime .FINISHED w e dn, 0, []) :=
      Act.leaf_update_notRunning _ fuel d rfl
        (by simp only [Act.status]; decide)
    rw [hu] at h
    simp only at h
    cases hrest : Act.runUpdates (fuel + 1)
        (.waitForTime .FINISHED w e dn) ds with
    | none => rw [hrest] at h; simp at h
    | some rest =>
      rw [hrest] at h
      obtain ⟨rfl, rfl⟩ : rest.1 = res ∧ (0 : ℚ) :: rest.2 = ls := by
        simpa [Prod.ext_iff] using h
      obtain ⟨h1, h2⟩ := ih fuel w e dn rest.1 rest.2 hrest
      exact ⟨h1, by rw [h2]; rfl⟩

theorem timer_running_run :
    ∀ (ds : List ℚ) (fuel : Nat) (D c : ℚ) (res : Act) (ls : List ℚ),
      (∀ d ∈ ds, 0 ≤ d) →
      Act.runUpdates (fuel + 1) (.waitForTime .RUNNING D c false) ds
        = some (res, ls) →
      (res.doneFlag = true → res.delayed = D)
      ∧ ls = timerSpecLeftovers D c ds := by
  intro ds
  induction ds with
  | nil =>
    intro fuel D c res ls hnn h
    obtain ⟨rfl, rfl⟩ : (Act.waitForTime .RUNNING D c false) = res
        ∧ ([] : List ℚ) = ls := by
      simpa [Act.runUpdates, Prod.ext_iff] using h
    exact ⟨by intro hcon; simp [Act.doneFlag] at hcon, rfl⟩
  | cons d ds ih =>
    intro fuel D c res ls hnn h
    simp only [Act.runUpdates] at h
    by_cases hfin : D ≤ c + d
    · rw [Act.timer_update_run_fin fuel D c d false hfin] at h
      simp only at h
      cases hrest : Act.runUpdates (fuel + 1)
          (.waitForTime .FINISHED D D true) ds with
      | none => rw [hrest] at h; simp at h
      | some rest =>
        rw [hrest] at h
        obtain ⟨rfl, rfl⟩ : rest.1 = res ∧ (d - (D - c)) :: rest.2 = ls := by
          simpa [Prod.ext_iff] using h
        obtain ⟨h1, h2⟩ := timer_finished_run ds fuel D D true rest.1 rest.2
          hrest
        refine ⟨?_, ?_⟩
        · rw [h1]; intro _; rfl
        · rw [h2, timerSpecLeftovers, if_pos hfin]
    · rw [Act.timer_update_run_go fuel D c d false hfin] at h
      simp only at h
      cases hrest : Act.runUpdates (fuel + 1)
          (.waitForTime .RUNNING D (c + d) false) ds with
      | none => rw [hrest] at h; simp at h
      | some rest =>
        rw [hrest] at h
        obtain ⟨rfl, rfl⟩ : rest.1 = res ∧ (0 : ℚ) :: rest.2 = ls := by
          simpa [Prod.ext_iff] using h
        obtain ⟨h1, h2⟩ := ih fuel D (c + d) rest.1 rest.2
          (fun x hx => hnn x (by simp [hx])) hrest
        exact ⟨h1, by rw [h2, timerSpecLeftovers, if_neg hfin]⟩

/-- Claim C7 (confirmed): for a started timer with target `D`, driven by any
non-negative deltas, the accumulated `_delayedTime` — which increases each
call by exactly the time consumed in that call — equals exactly `D` once the
timer is done, and the sequence of returned leftovers is exactly the one the
spec P2 prescribes (`timerSpecLeftovers`): `0` for every call before the
target is reached, `delta - (D - elapsed_before)` for the call that reaches
it (that quantity being non-negative there), and `0` afterwards. -/
theorem C7_timer_time_conservation (fuel : Nat) (D : ℚ) (ds : List ℚ)
    (res : Act) (ls : List ℚ) (hnn : ∀ d ∈ ds, 0 ≤ d)
    (h : Act.runUpdates (fuel + 1) (.waitForTime .RUNNING D 0 false) ds
      = some (res, ls)) :
    (res.doneFlag = true → res.delayed = D)
    ∧ ls = timerSpecLeftovers D 0 ds :=
  timer_running_run ds fuel D 0 res ls hnn h

/-- Claim C7, witness: the theorem applied to a timer with target `2` driven
by deltas `[1, 3]` — the first call consumes everything and returns `0`, the
second consumes the remaining `1` and returns `3 - (2 - 1) = 2`, and the
accumulated time is exactly `2`. -/
theorem C7_timer_witness :
    (∀ d ∈ [(1 : ℚ), 3], 0 ≤ d)
    ∧ Act.runUpdates 1 (.waitForTime .RUNNING 2 0 false) [1, 3]
        = some (.waitForTime .FINISHED 2 2 true, [0, 2])
    ∧ ((Act.waitForTime .FINISHED 2 2 true).doneFlag = true →
        (Act.waitForTime .FINISHED 2 2 true).delayed = 2)
    ∧ [(0 : ℚ), 2] = timerSpecLeftovers 2 0 [1, 3] := by
  have hrun : Act.runUpdates 1 (.waitForTime .RUNNING 2 0 false) [(1 : ℚ), 3]
      = some (.waitForTime .FINISHED 2 2 true, [0, 2]) := by
    norm_num [Act.runUpdates, Act.updateFuel, Action.UpdateStatus, atRoot]
  have hc := C7_timer_time_conservation 0 2 [1, 3] _ _ (by norm_num) hrun
  exact ⟨by norm_num, hrun, hc.1, hc.2⟩

/-- Reachable states of an `ActionFunction`: either the callback has never
run (`calls = 0`, `_done` false) or it ran exactly once, `_done` is set, and
the status is terminal (`Finished`, or `Canceled` by a later `Stop`). -/
def funcInv (a : Act) : Prop :=
  ∃ s c d, a = .funcAct s c d
    ∧ ((c = 0 ∧ d = false)
      ∨ (c = 1 ∧ d = true ∧ (s = .FINISHED ∨ s = .CANCELED)))

theorem funcInv_step (fuel : Nat) (op : Op) (a a' : Act) (hi : funcInv a)
    (h : Act.applyOp fuel op a = some a') : funcInv a' := by
  obtain ⟨s, c, d, rfl, hbr⟩ := hi
  cases op with
  | opStart =>
    obtain rfl : (Act.start (.funcAct s c d)).1 = a' := by
      simpa [Act.applyOp] using h
    by_cases hs : s = .INIT
    · subst hs
      refine ⟨.RUNNING, c, d, by simp [Act.start, Action.Start, Act.status,
        Act.withStatus], ?_⟩
      rcases hbr with hb | hb
      · exact Or.inl hb
      · rcases hb.2.2 with hcon | hcon <;> simp at hcon
    · refine ⟨s, c, d, by simp [Act.start, Action.Start, Act.status,
        Act.withStatus, hs], hbr⟩
  | opPause =>
    obtain rfl : (Act.funcAct (Action.Pause s).1 c d : Act) = a' := by
      simpa [Act.applyOp, Act.pause, Act.lifeOp] using h
    refine ⟨(Action.Pause s).1, c, d, rfl, ?_⟩
    rcases hbr with hb | hb
    · exact Or.inl hb
    · refine Or.inr ⟨hb.1, hb.2.1, ?_⟩
      rcases hb.2.2 with rfl | rfl
      · exact Or.inl (by simp [Action.Pause])
      · exact Or.inr (by simp [Action.Pause])
  | opResume =>
    obtain rfl : (Act.funcAct (Action.Resume s).1 c d : Act) = a' := by
      simpa [Act.applyOp, Act.resume, Act.lifeOp] using h
    refine ⟨(Action.Resume s).1, c, d, rfl, ?_⟩
    rcases hbr with hb | hb
    · exact Or.inl hb
    · refine Or.inr ⟨hb.1, hb.2.1, ?_⟩
      rcases hb.2.2 with rfl | rfl
      · exact Or.inl (by simp [Action.Resume])
      · exact Or.inr (by simp [Action.Resume])
  | opStop =>
    obtain rfl : (Act.funcAct .CANCELED c d : Act) = a' := by
      simpa [Act.applyOp, Act.stop, Act.lifeOp, Action.Stop] using h
    refine ⟨.CANCELED, c, d, rfl, ?_⟩
    rcases hbr with hb | hb
    · exact Or.inl hb
    · exact Or.inr ⟨hb.1, hb.2.1, Or.inr rfl⟩
  | opUpdate t =>
    match fuel with
    | 0 => simp [Act.applyOp, Act.updateFuel] at h
    | m + 1 =>
      by_cases hs : s = .RUNNING
      · subst hs
        obtain rfl : (Act.funcAct .FINISHED (c + 1) true : Act) = a' := by
          simpa [Act.applyOp, Act.updateFuel, Action.UpdateStatus] using h
        rcases hbr with hb | hb
        · exact ⟨.FINISHED, c + 1, true, rfl,
            Or.inr ⟨by rw [hb.1], rfl, Or.inl rfl⟩⟩
        · rcases hb.2.2 with hcon | hcon <;> simp at hcon
      · obtain rfl : (Act.funcAct s c d : Act) = a' := by
          simpa [Act.applyOp, Act.updateFuel, hs] using h
        exact ⟨s, c, d, rfl, hbr⟩

theorem funcInv_run :
    ∀ (ops : List Op) (fuel : Nat) (a res : Act), funcInv a →
      Act.applyOps fuel ops a = some res → funcInv res := by
  intro ops
  induction ops with
  | nil =>
    intro fuel a res hi h
    obtain rfl : a = res := by simpa [Act.applyOps] using h
    exact hi
  | cons o os ih =>
    intro fuel a res hi h
    simp only [Act.applyOps] at h
    cases ho : Act.applyOp fuel o a with
    | none => rw [ho] at h; simp at h
    | some a1 =>
      rw [ho] at h
      exact ih fuel a1 res (funcInv_step fuel o a a1 hi ho) h

/-- Claim C8 (confirmed): starting from a fresh `ActionFunction`, any
sequence of lifecycle operations and `Update` calls invokes the callback at
most once, and exactly once just when `_done` is set; whenever the action is
`Running` the callback has not yet run and the next `Update` invokes it
synchronously, reports done immediately (status `Finished`, `_done` set) and
returns the full delta as leftover; and once `_done` is set no later
`Update` invokes the callback again (the call is a no-op returning `0`). -/
theorem C8_function_exactly_once (fuel : Nat) (ops : List Op) (res : Act)
    (h : Act.applyOps fuel ops funcFresh = some res) :
    res.calls ≤ 1
    ∧ (res.calls = 1 ↔ res.doneFlag = true)
    ∧ (res.status = .RUNNING → res.calls = 0
        ∧ ∀ (m : Nat) (t : ℚ), Act.updateFuel (m + 1) res t
            = some (.funcAct .FINISHED 1 true, t, atRoot [.FINISHED]))
    ∧ (res.doneFlag = true → ∀ (m : Nat) (t : ℚ),
        Act.updateFuel (m + 1) res t = some (res, 0, [])) := by
  have hi : funcInv res := funcInv_run ops fuel funcFresh res
    ⟨.INIT, 0, false, rfl, Or.inl ⟨rfl, rfl⟩⟩ h
  obtain ⟨s, c, d, rfl, hbr⟩ := hi
  rcases hbr with ⟨rfl, rfl⟩ | ⟨rfl, rfl, hs⟩
  · refine ⟨by simp [Act.calls], by simp [Act.calls, Act.doneFlag], ?_, ?_⟩
    · intro hrun
      refine ⟨rfl, fun m t => ?_⟩
      simp only [Act.status] at hrun
      subst hrun
      simp [Act.updateFuel, Action.UpdateStatus]
    · intro hcon
      simp [Act.doneFlag] at hcon
  · refine ⟨by simp [Act.calls], by simp [Act.calls, Act.doneFlag], ?_, ?_⟩
    · intro hrun
      simp only [Act.status] at hrun
      rcases hs with rfl | rfl <;> simp at hrun
    · intro _ m t
      have hns : s ≠ .RUNNING := by
        rcases hs with rfl | rfl <;> decide
      simp [Act.updateFuel, hns]

/-- Claim C8, witness: the theorem applied to the run `Start` then
`Update 5`, after which the callback has run exactly once; a further
`Update 7` of the finished action is a no-op. -/
theorem C8_function_witness :
    Act.applyOps 3 [Op.opStart, Op.opUpdate 5] funcFresh
        = some (.funcAct .FINISHED 1 true)
    ∧ (Act.funcAct .FINISHED 1 true).calls ≤ 1
    ∧ ((Act.funcAct .FINISHED 1 true).calls = 1
        ↔ (Act.funcAct .FINISHED 1 true).doneFlag = true)
    ∧ Act.updateFuel 1 (.funcAct .FINISHED 1 true) 7
        = some (.funcAct .FINISHED 1 true, 0, []) := by
  have hops : Act.applyOps 3 [Op.opStart, Op.opUpdate 5] funcFresh
      = some (.funcAct .FINISHED 1 true) := rfl
  have hc := C8_function_exactly_once 3 [Op.opStart, Op.opUpdate 5] _ hops
  exact ⟨hops, hc.1, hc.2.1, hc.2.2.2 rfl 0 7⟩

/-- Claim C9, counterexample: the claim quantifies over every registry
state, but in a registry that already holds an action under the name, even
the first of the two `Start` calls is ignored, so the first action is never
registered: after both calls the entry under `"a"` is still the pre-existing
action (callback counter 5), not the started first action (counter 0). -/
theorem C9_counterexample :
    ((ActionManager.Start (ActionManager.Start
        ⟨[("a", Act.funcAct .RUNNING 5 false)]⟩ "a" (.funcAct .INIT 0 false))
        "a" (.funcAct .INIT 7 false)).actions.lookup "a").map Act.calls
      = some 5
    ∧ Act.calls ((Act.start (.funcAct .INIT 0 false)).1) = 0
    ∧ (5 : Nat) ≠ 0 := by
  refine ⟨rfl, rfl, by decide⟩

/-- Claim C9, amended: provided the name is not already registered, calling
`ActionManager::Start` twice with the same name and two different actions
leaves the first action registered (and started, hence active) and ignores
the second call entirely — the registry state after the second call is
exactly the state after the first, so the second action is neither stored
nor started, and no error is signaled (there is no error path). -/
theorem C9_amended_duplicate_start (m : ActionManager) (name : String)
    (a1 a2 : Act) (hfree : m.actions.lookup name = none) :
    ActionManager.Start (ActionManager.Start m name a1) name a2
        = ActionManager.Start m name a1
    ∧ (ActionManager.Start m name a1).actions.lookup name
        = some ((Act.start a1).1)
    ∧ (a1.status = .INIT → ((Act.start a1).1).status = .RUNNING) := by
  have h1 : ActionManager.Start m name a1
      = ⟨(name, (Act.start a1).1) :: m.actions⟩ := by
    simp [ActionManager.Start, hfree]
  have h2 : (((name, (Act.start a1).1) :: m.actions).lookup name)
      = some ((Act.start a1).1) := by
    simp [List.lookup]
  refine ⟨?_, ?_, ?_⟩
  · rw [h1]
    simp [ActionManager.Start, h2]
  · rw [h1]
    exact h2
  · intro hi
    simp [Act.start, Action.Start, hi]

/-- Claim C9 amended, witness: the amended theorem applied to the empty
registry. -/
theorem C9_amended_witness :
    (ActionManager.mk []).actions.lookup "a" = none
    ∧ ActionManager.Start (ActionManager.Start ⟨[]⟩ "a"
          (.funcAct .INIT 0 false)) "a" (.funcAct .INIT 1 false)
        = ActionManager.Start ⟨[]⟩ "a" (.funcAct .INIT 0 false)
    ∧ (ActionManager.Start ⟨[]⟩ "a" (.funcAct .INIT 0 false)).actions.lookup
        "a" = some ((Act.start (.funcAct .INIT 0 false)).1)
    ∧ ((Act.funcAct .INIT 0 false : Act).status = .INIT →
        ((Act.start (.funcAct .INIT 0 false)).1).status = .RUNNING) := by
  have hc := C9_amended_duplicate_start ⟨[]⟩ "a" (.funcAct .INIT 0 false)
    (.funcAct .INIT 1 false) rfl
  exact ⟨rfl, hc.1, hc.2.1, hc.2.2⟩

theorem lookup_eq_none_of_not_mem_keys (name : String) :
    ∀ (es : List (String × Act)), name ∉ es.map Prod.fst →
      es.lookup name = none := by
  intro es
  induction es with
  | nil => intro _; rfl
  | cons p rest ih =>
    intro hnm
    simp only [List.map_cons, List.mem_cons] at hnm
    push_neg at hnm
    have hne : (name == p.1) = false := beq_eq_false_iff_ne.mpr hnm.1
    cases p with
    | mk nm b =>
      simp only [List.lookup, hne]
      exact ih hnm.2

theorem updateList_lookup_none (name : String) :
    ∀ (es : List (String × Act)) (fuel : Nat) (t : ℚ)
      (es' : List (String × Act)),
      es.lookup name = none →
      ActionManager.updateList fuel t es = some es' →
      es'.lookup name = none := by
  intro es
  induction es with
  | nil =>
    intro fuel t es' _ h
    obtain rfl : ([] : List (String × Act)) = es' := by
      simpa [ActionManager.updateList] using h
    rfl
  | cons p rest ih =>
    intro fuel t es' hlook h
    cases p with
    | mk nm b =>
      simp only [ActionManager.updateList] at h
      cases hub : Act.updateFuel fuel b t with
      | none => rw [hub] at h; simp at h
      | some rb =>
        rw [hub] at h
        simp only at h
        cases hrest : ActionManager.updateList fuel t rest with
        | none => rw [hrest] at h; simp at h
        | some rest' =>
          rw [hrest] at h
          have hne : (name == nm) = false := by
            by_contra hcon
            rw [Bool.not_eq_false, beq_iff_eq] at hcon
            subst hcon
            simp [List.lookup] at hlook
          have hrlook : rest.lookup name = none := by
            simpa [List.lookup, hne] using hlook
          have hrest'none := ih fuel t rest' hrlook hrest
          by_cases hfin : rb.1.status = .FINISHED
          · obtain rfl : rest' = es' := by simpa [hfin] using h
            exact hrest'none
          · obtain rfl : (nm, rb.1) :: rest' = es' := by
              simpa [hfin] using h
            simpa [List.lookup, hne] using hrest'none

/-- Claim C10 (confirmed): during `ActionManager::Update`, any entry whose
root action is observed `Finished` immediately after its own `Update` is
erased in that same call, so a subsequent `IsExist` for its name returns
false (assuming the map invariant that keys are unique). -/
theorem C10_registry_cleanup :
    ∀ (entries : List (String × Act)) (fuel : Nat) (t : ℚ) (name : String)
      (a a' : Act) (l : ℚ) (e : Evs) (entries' : List (String × Act)),
      (entries.map Prod.fst).Nodup →
      (name, a) ∈ entries →
      Act.updateFuel fuel a t = some (a', l, e) →
      a'.status = .FINISHED →
      ActionManager.updateList fuel t entries = some entries' →
      ActionManager.IsExist ⟨entries'⟩ name = false := by
  intro entries
  induction entries with
  | nil => intro fuel t name a a' l e entries' _ hmem; simp at hmem
  | cons p rest ih =>
    intro fuel t name a a' l e entries' hnd hmem hu hfin h
    cases p with
    | mk nm b =>
      simp only [List.map_cons, List.nodup_cons] at hnd
      simp only [ActionManager.updateList] at h
      cases hub : Act.updateFuel fuel b t with
      | none => rw [hub] at h; simp at h
      | some rb =>
        rw [hub] at h
        simp only at h
        cases hrest : ActionManager.updateList fuel t rest with
        | none => rw [hrest] at h; simp at h
        | some rest' =>
          rw [hrest] at h
          rcases List.mem_cons.mp hmem with heq | hmemr
          · obtain ⟨rfl, rfl⟩ : name = nm ∧ a = b := by
              simpa [Prod.ext_iff] using heq
            rw [hu] at hub
            obtain rfl : (a', l, e) = rb := by simpa using hub
            obtain rfl : rest' = entries' := by simpa [hfin] using h
            have hnotin : name ∉ rest.map Prod.fst := hnd.1
            have hrlook := lookup_eq_none_of_not_mem_keys name rest hnotin
            have hrn := updateList_lookup_none name rest fuel t rest' hrlook
              hrest
            simp [ActionManager.IsExist, hrn]
          · have hname : name ∈ rest.map Prod.fst :=
              List.mem_map.mpr ⟨(name, a), hmemr, rfl⟩
            have hne : name ≠ nm := by
              intro hcon
              subst hcon
              exact hnd.1 hname
            have hres := ih fuel t name a a' l e rest' hnd.2 hmemr hu hfin
              hrest
            by_cases hf : rb.1.status = .FINISHED
            · obtain rfl : rest' = entries' := by simpa [hf] using h
              exact hres
            · obtain rfl : (nm, rb.1) :: rest' = entries' := by
                simpa [hf] using h
              have hneb : (name == nm) = false := beq_eq_false_iff_ne.mpr hne
              simp only [ActionManager.IsExist, List.lookup, hneb] at hres ⊢
              exact hres

/-- Claim C10, witness: the theorem applied to a registry with one running
`ActionFunction` under `"a"`: one `Update(1)` finishes it, the entry is
erased, and `IsExist "a"` is false. -/
theorem C10_registry_witness :
    ([("a", Act.funcAct .RUNNING 0 false)].map Prod.fst).Nodup
    ∧ ("a", Act.funcAct .RUNNING 0 false)
        ∈ [("a", Act.funcAct .RUNNING 0 false)]
    ∧ Act.updateFuel 1 (.funcAct .RUNNING 0 false) 1
        = some (.funcAct .FINISHED 1 true, 1, atRoot [.FINISHED])
    ∧ (Act.funcAct .FINISHED 1 true).status = .FINISHED
    ∧ ActionManager.updateList 1 1 [("a", Act.funcAct .RUNNING 0 false)]
        = some []
    ∧ ActionManager.IsExist ⟨[]⟩ "a" = false := by
  have hu : Act.updateFuel 1 (.funcAct .RUNNING 0 false) (1 : ℚ)
      = some (.funcAct .FINISHED 1 true, 1, atRoot [.FINISHED]) := rfl
  have hl : ActionManager.updateList 1 1
      [("a", Act.funcAct .RUNNING 0 false)] = some [] := rfl
  refine ⟨by simp, by simp, hu, rfl, hl,
    C10_registry_cleanup [("a", Act.funcAct .RUNNING 0 false)] 1 1 "a"
      (.funcAct .RUNNING 0 false) (.funcAct .FINISHED 1 true) 1
      (atRoot [.FINISHED]) [] (by simp) (by simp) hu rfl hl⟩
